import Mathlib

/-!
Verification development for the tgfonki song-bot repository.

The development shallowly embeds the two algorithmic cores of the
repository:

- the lyrics normalizer of src/telegram_song_bot/text_formatter.py
  (identical code is duplicated in src/main.py): trim, is_non_empty,
  clean_html_entities, CHORD_REGEX, is_chord_line, SECTION_LABELS,
  is_section_label, is_numbered_section, format_lines, format_song;

- the single-page font-fit search of create_pdf in src/main.py
  (coarse descent plus the bounded additional-reduction phase), with
  the page-layout engine abstracted as an oracle from font size to
  page count, exactly as the specification treats it.

Text is modelled as List Char (Lean String is a wrapper around it).
Python str.strip, str.split, str.lower and the two regular expressions
are translated into executable Lean functions.  Recursions that are not
structural are driven by an explicit fuel argument that provably covers
the input (each step consumes at least one character), so that every
definition evaluates by kernel reduction.
-/

/-! ## Character-level helpers -/

/-- Whitespace characters recognised by Python str.strip / str.split /
the regex class backslash-s (ASCII part). -/
def pySpace (c : Char) : Bool :=
  c = ' ' || c = '\t' || c = '\n' || c = '\x0b' || c = '\x0c' || c = '\r'

/-- ASCII decimal digit, the regex class backslash-d. -/
def isAsciiDigit (c : Char) : Bool :=
  48 ≤ c.toNat && c.toNat ≤ 57

/-- Code-point level lower-casing: ASCII letters plus the Cyrillic
ranges used by the section labels (Python str.lower restricted to the
alphabets the source actually contains). -/
def lowerNat (n : Nat) : Nat :=
  if 65 ≤ n ∧ n ≤ 90 then n + 32
  else if 0x410 ≤ n ∧ n ≤ 0x42F then n + 32
  else if 0x400 ≤ n ∧ n ≤ 0x40F then n + 80
  else if n = 0x490 then n + 1
  else n

/-- Code-point level upper-casing, inverse direction of lowerNat. -/
def upperNat (n : Nat) : Nat :=
  if 97 ≤ n ∧ n ≤ 122 then n - 32
  else if 0x430 ≤ n ∧ n ≤ 0x44F then n - 32
  else if 0x450 ≤ n ∧ n ≤ 0x45F then n - 80
  else if n = 0x491 then n - 1
  else n

/-- Python str.lower on one character (ASCII and Cyrillic). -/
def pyLower (c : Char) : Char := Char.ofNat (lowerNat c.toNat)

/-- Python str.upper on one character (ASCII and Cyrillic). -/
def pyUpper (c : Char) : Char := Char.ofNat (upperNat c.toNat)

/-- Python str.capitalize: first character upper-cased, the rest
lower-cased. -/
def pyCapitalize : List Char → List Char
  | [] => []
  | c :: rest => pyUpper c :: rest.map pyLower

/-! ## List-of-characters helpers -/

/-- lstarts p l is true when p is an initial segment of l
(Python str.startswith). -/
def lstarts : List Char → List Char → Bool
  | [], _ => true
  | _ :: _, [] => false
  | p :: ps, c :: cs => p = c && lstarts ps cs

/-- containsSeq s l is true when s occurs contiguously inside l
(the Python expression sym in t). -/
def containsSeq : List Char → List Char → Bool
  | s, [] => s.isEmpty
  | s, c :: cs => lstarts s (c :: cs) || containsSeq s cs

/-- Python str.strip(): remove leading and trailing whitespace. -/
def trimL (l : List Char) : List Char :=
  ((l.dropWhile pySpace).reverse.dropWhile pySpace).reverse

/-- Python str.rstrip with the two delimiter characters, used on the
section labels before the startswith comparison. -/
def rstripCP (l : List Char) : List Char :=
  (l.reverse.dropWhile (fun c => c = ':' || c = '|')).reverse

/-- The regex sub removing a single trailing colon or bar,
re.sub of the pattern colon-or-bar-at-end in format_song. -/
def stripDelim (l : List Char) : List Char :=
  match l.getLast? with
  | some c => if c = ':' || c = '|' then l.dropLast else l
  | none => l

/-- Python str.split('\n'): split on every newline, keeping empty
pieces; the empty string yields one empty line. -/
def splitLines : List Char → List (List Char)
  | [] => [[]]
  | c :: rest =>
    match splitLines rest with
    | [] => [[c]]
    | l :: ls => if c = '\n' then [] :: l :: ls else (c :: l) :: ls

/-- Python newline join. -/
def joinLines (ls : List (List Char)) : List Char :=
  (ls.intersperse ['\n']).flatten

/-- Python str.split() with no argument: maximal runs of
non-whitespace, empty pieces discarded. -/
def splitWs : List Char → List (List Char)
  | [] => []
  | [c] => if pySpace c then [] else [[c]]
  | c :: d :: rest =>
    if pySpace c then splitWs (d :: rest)
    else
      if pySpace d then [c] :: splitWs (d :: rest)
      else
        match splitWs (d :: rest) with
        | [] => [[c]]
        | t :: ts => (c :: t) :: ts

/-! ## The chord-token grammar (CHORD_REGEX of text_formatter.py)

The regex is anchored on both sides and case-insensitive:
root note A-H, optional accidental b or the sharp sign, then a
sequence of enumerated quality or extension suffixes, then a sequence
of slash-bass parts.  A backtracking match of that pattern succeeds
exactly when the string decomposes that way, which is what the
functions below decide. -/

/-- Root note A-H, case-insensitively. -/
def isRootNote (c : Char) : Bool :=
  let n := lowerNat c.toNat
  97 ≤ n && n ≤ 104

/-- The accidental class of the regex: the letter b (case-insensitive
under re.I) or the sharp sign. -/
def isAccidentalChar (c : Char) : Bool :=
  lowerNat c.toNat = 98 || c = '#'

/-- The closed alternation of quality and extension suffixes of
CHORD_REGEX, each alternative expanded to an explicit string. -/
def altStrings : List (List Char) :=
  [ "2", "5", "6", "7", "9", "11", "13",
    "+2", "+3", "+4", "+5", "+6", "+7", "+8", "+9",
    "+11", "+12", "+13",
    "6/9", "7-5", "7#5", "7-9", "7#9", "7+3", "7+5", "7+9",
    "7b5", "7b9", "7sus2", "7sus4", "sus4",
    "add2", "add4", "add6", "add9",
    "aug", "dim", "dim7", "m/maj7", "m6", "m7", "m7b5",
    "m9", "m11", "m13",
    "maj", "maj7", "maj9", "maj11", "maj12", "maj13",
    "mb5", "m", "sus", "sus2", "m7add11", "add11",
    "b5", "-5", "4" ].map String.data

/-- Case-insensitive startswith against an already lower-cased
pattern, used for the regex alternatives under re.I. -/
def ciStarts (p l : List Char) : Bool :=
  lstarts p (l.map pyLower)

mutual

/-- The trailing slash-bass repetition of CHORD_REGEX: slash, root
note, then any number of accidentals, repeated. -/
def slashSeq : List Char → Bool
  | [] => true
  | c :: rest => c = '/' && slashRoot rest

def slashRoot : List Char → Bool
  | [] => false
  | c :: rest => isRootNote c && slashAcc rest

def slashAcc : List Char → Bool
  | [] => true
  | c :: rest =>
    if isAccidentalChar c then slashAcc rest
    else c = '/' && slashRoot rest

end

/-- Fuelled decision of: the string is a sequence of suffix
alternatives followed by a slash-bass sequence.  Every recursive call
drops at least one character, so fuel larger than the length is always
enough. -/
def sufF : Nat → List Char → Bool
  | 0, _ => false
  | n + 1, l =>
    slashSeq l ||
      altStrings.any (fun a => ciStarts a l && sufF n (l.drop a.length))

/-- The suffix part of CHORD_REGEX with adequate fuel. -/
def matchesSuffix (l : List Char) : Bool :=
  sufF (l.length + 1) l

/-- Full-token match of CHORD_REGEX: root, optional accidental, the
suffix alternation, the slash-bass tail. -/
def chordRegexMatch : List Char → Bool
  | [] => false
  | c :: rest =>
    isRootNote c &&
      (matchesSuffix rest ||
        match rest with
        | [] => false
        | d :: rest2 => isAccidentalChar d && matchesSuffix rest2)

/-- CHORD_SYMBOLS of text_formatter.py. -/
def chordSyms : List (List Char) :=
  ["|", "/", "(", ")", "-", "x2", "x3", "x4", "x5", "x6", "NC"].map String.data

/-- One whitespace-separated token passes the chord-line test: it
matches CHORD_REGEX or contains one of the reserved symbols. -/
def chordTok (t : List Char) : Bool :=
  chordRegexMatch t || chordSyms.any (fun s => containsSeq s t)

/-- is_chord_line of text_formatter.py. -/
def isChordLine (l : List Char) : Bool :=
  if trimL l = [] then false
  else (splitWs (trimL l)).all chordTok

/-! ## Section labels (SECTION_LABELS, is_section_label,
is_numbered_section of text_formatter.py) -/

/-- SECTION_LABELS: the digit prefixes produced by the two set
comprehensions plus the lower-cased multilingual label literals (the
source lower-cases them once at startup, so the stored constant is the
lower-cased form written here). -/
def sectionLabels : List (List Char) :=
  ([ "0|", "1|", "2|", "3|", "4|", "5|", "6|", "7|", "8|", "9|",
     "0:", "1:", "2:", "3:", "4:", "5:", "6:", "7:", "8:", "9:",
     "вступление:", "интро:", "куплет:", "припев:", "переход:", "реп:",
     "мост:", "мостик:", "вставка:", "речитатив:", "бридж:",
     "инструментал:", "проигрыш:", "запев:", "концовка:", "окончание:",
     "в конце:", "кода:", "тэг:",
     "intro:", "verse:", "chorus:", "pre chorus:", "pre-chorus:",
     "bridge:", "instrumental:", "ending:", "outro:", "interlude:",
     "rap:", "spontaneous:", "refrain:", "tag:", "coda:", "vamp:",
     "channel:", "breakdown:", "hook:",
     "вступ:", "приспів:", "брідж:", "заспів:", "міст:", "програш:",
     "перехід:", "інтро:", "повтор:", "кінець:", "тег:" ]
    : List String).map String.data

/-- is_section_label: the trimmed, lower-cased line starts with some
label stripped of its trailing delimiters. -/
def isSectionLabel (l : List Char) : Bool :=
  sectionLabels.any (fun lbl => lstarts (rstripCP lbl) ((trimL l).map pyLower))

/-- The keyword alternation of the numbered-section regex, in source
order. -/
def numKinds : List (List Char) :=
  (["куплет", "бридж", "verse", "bridge"] : List String).map String.data

/-- First keyword of the alternation that matches case-insensitively
at the head of the remainder. -/
def kwMatch (l : List Char) : Option (List Char) :=
  numKinds.find? (fun kw => ciStarts kw l)

/-- The anchored regex of is_numbered_section applied to an already
stripped line: one or more digits, optional whitespace, then one of
the keywords; returns the digit run and the capitalized matched slice.
Greedy runs are exact here because no keyword starts with a digit or
with whitespace. -/
def numParse (t : List Char) : Option (List Char × List Char) :=
  let num := t.takeWhile isAsciiDigit
  if num = [] then none
  else
    let rest := (t.dropWhile isAsciiDigit).dropWhile pySpace
    match kwMatch rest with
    | some kw => some (num, pyCapitalize (rest.take kw.length))
    | none => none

/-- is_numbered_section of text_formatter.py (the source strips the
line before matching). -/
def isNumberedSection (l : List Char) : Option (List Char × List Char) :=
  numParse (trimL l)

/-! ## HTML-entity stripping (clean_html_entities) -/

/-- The character class word-or-hash of the entity regex: Python
backslash-w (ASCII letters, digits, underscore, plus the Cyrillic
letters relevant to this source) or the hash sign. -/
def entChar (c : Char) : Bool :=
  isAsciiDigit c
    || (97 ≤ lowerNat c.toNat && lowerNat c.toNat ≤ 122)
    || c = '_' || c = '#'
    || (0x400 ≤ c.toNat && c.toNat ≤ 0x4FF)

/-- Fuelled scanner of re.sub removing every match of
ampersand, one or more word-or-hash characters, semicolon.  A greedy
run followed by the semicolon test is exact because the semicolon is
not a word character.  Each step consumes at least one character, so
fuel equal to the length suffices; exhausted fuel returns the rest
unchanged. -/
def cleanF : Nat → List Char → List Char
  | 0, l => l
  | n + 1, l =>
    match l with
    | [] => []
    | c :: rest =>
      if c = '&' then
        let run := rest.takeWhile entChar
        if run ≠ [] ∧ (rest.drop run.length).head? = some ';' then
          cleanF n (rest.drop (run.length + 1))
        else c :: cleanF n rest
      else c :: cleanF n rest

/-- clean_html_entities of text_formatter.py on non-blank input (the
callers only reach it with non-blank text). -/
def cleanHtml (l : List Char) : List Char :=
  cleanF l.length l

/-! ## format_lines and format_song -/

/-- Marker test: the trimmed line starts with the three-character
header marker. -/
def isHdr (l : List Char) : Bool :=
  lstarts "##(".data l

/-- The loop body of format_lines.  The Boolean records whether a
header line was seen before; the Option records the last line appended
so far (none while the result list is still empty), which is what the
test on the last result element consults. -/
def flGo (fh : Bool) (last : Option (List Char)) :
    List (List Char) → List (List Char)
  | [] => []
  | line :: rest =>
    let l := trimL line
    let hdr := isHdr l
    let ins := hdr && fh &&
      (match last with
       | some p => decide (p ≠ [])
       | none => false)
    let fh2 := fh || hdr
    if l = ['/', '/'] then
      (if ins then [([] : List Char)] else []) ++
        flGo fh2 (if ins then some [] else last) rest
    else
      (if ins then [([] : List Char)] else []) ++
        l :: flGo fh2 (some l) rest

/-- format_lines of text_formatter.py. -/
def formatLinesL (s : List Char) : List Char :=
  if trimL s = [] then []
  else trimL (joinLines (flGo false none (splitLines s)))

/-- The per-line classification and rewriting step of format_song:
none for dropped lines (blank or chord), otherwise the line as it is
appended to the output list. -/
def procLine (line : List Char) : Option (List Char) :=
  let t := trimL line
  if t = [] then none
  else if isChordLine t then none
  else
    match isNumberedSection t with
    | some (num, ty) => some (ty ++ ' ' :: (num ++ [':']))
    | none =>
      if isSectionLabel t then some (stripDelim t ++ [':'])
      else some t

/-- format_song of text_formatter.py on the character level. -/
def formatSongL (raw : List Char) : List Char :=
  if trimL raw = [] then []
  else
    formatLinesL (joinLines ((splitLines (cleanHtml raw)).filterMap procLine))

/-- format_song on Lean strings (the normalize operation of the
specification). -/
def formatSong (s : String) : String :=
  String.mk (formatSongL s.data)

/-! ## The single-page font-fit search (create_pdf of src/main.py)

The layout engine is abstracted as an oracle from font size to page
count, as in the specification.  The model parameterizes the floor and
the start size (the source instantiates them with 6 and 30); the
coarse step, the additional-reduction step and the attempt budget are
the fixed source constants one half, one half and ten.  Font sizes are
rationals: the source only ever manipulates exact multiples of one
half.  Every oracle invocation of the source (the probes of
check_fits_on_page and every rendering of the document) is recorded in
a trace so that properties about the number of oracle calls can be
stated. -/

/-- The result and instrumentation of one fit search: the final font
size, the page count of the document that would be saved, whether the
floor was hit (the specification defines hitFloor as size equal to
minFontSize on return), and the traces of oracle queries of the coarse
phase, the intermediate rendering, and the additional-reduction
phase. -/
structure FitOutcome where
  chosen : ℚ
  pages : ℕ
  hitFloor : Bool
  coarseTr : List ℚ
  midSize : ℚ
  addTr : List ℚ
  deriving Repr, DecidableEq

/-- The coarse descent loop: while size is above the floor, query the
oracle and stop on a one-page report, else decrement by one half.  The
fuel is chosen by the caller so that its exhaustion coincides with the
loop condition turning false.  Returns the final size and the queried
sizes. -/
def coarseF (oracle : ℚ → ℕ) (minF : ℚ) : ℕ → ℚ → ℚ × List ℚ
  | 0, s => (s, [])
  | n + 1, s =>
    if minF < s then
      if oracle s = 1 then (s, [s])
      else
        ((coarseF oracle minF n (s - 1/2)).1,
          s :: (coarseF oracle minF n (s - 1/2)).2)
    else (s, [])

/-- The additional-reduction loop of create_pdf: decrement by one
half; if that falls below the floor, clamp to the floor and stop
without another query; otherwise render (query) at the new size and
stop on one page or on reaching the floor; at most the given number of
attempts.  Returns the final size and the queried sizes. -/
def addPhase (oracle : ℚ → ℕ) (minF : ℚ) : ℚ → ℕ → ℚ × List ℚ
  | s, 0 => (s, [])
  | s, b + 1 =>
    if s - 1/2 < minF then (minF, [])
    else if oracle (s - 1/2) = 1 then (s - 1/2, [s - 1/2])
    else if s - 1/2 ≤ minF then (s - 1/2, [s - 1/2])
    else
      ((addPhase oracle minF (s - 1/2) b).1,
        (s - 1/2) :: (addPhase oracle minF (s - 1/2) b).2)

/-- The tail of create_pdf after the coarse loop: one rendering of the
document at the size the coarse phase chose, and, when that rendering
needs more than one page, the bounded additional-reduction phase.  The
page count reported is the page count of the last rendered document
(when the additional phase stops by clamping without a query, that is
the intermediate rendering). -/
def fitAfterCoarse (oracle : ℚ → ℕ) (minF : ℚ) (s1 : ℚ) (ctr : List ℚ) :
    FitOutcome :=
  if 1 < oracle s1 then
    { chosen := (addPhase oracle minF s1 10).1
      pages := oracle ((s1 :: (addPhase oracle minF s1 10).2).getLast
        (List.cons_ne_nil _ _))
      hitFloor := if (addPhase oracle minF s1 10).1 = minF then true else false
      coarseTr := ctr
      midSize := s1
      addTr := (addPhase oracle minF s1 10).2 }
  else
    { chosen := s1
      pages := oracle s1
      hitFloor := if s1 = minF then true else false
      coarseTr := ctr
      midSize := s1
      addTr := [] }

/-- The font-size search of create_pdf in src/main.py: the coarse
descent from startF (with fuel chosen so that its exhaustion coincides
with the loop condition turning false), one rendering of the document
at the resulting size, and, when that rendering needs more than one
page, the bounded additional-reduction phase via fitAfterCoarse. -/
def fitGo (oracle : ℚ → ℕ) (minF startF : ℚ) : FitOutcome :=
  fitAfterCoarse oracle minF
    (coarseF oracle minF ((Int.ceil ((startF - minF) * 2)).toNat) startF).1
    (coarseF oracle minF ((Int.ceil ((startF - minF) * 2)).toNat) startF).2

/-- All oracle queries of one fit search, in order: the coarse probes,
the intermediate rendering, the additional-reduction renderings. -/
def fitQueries (F : FitOutcome) : List ℚ :=
  F.coarseTr ++ F.midSize :: F.addTr

/-! ## Claims C1 and C2: the two concrete normalization examples -/

/-- Claim C1, counterexample: the input of two lines, Chorus with a
trailing bar and then La la, does not normalize to the form with the
bar replaced by a colon. -/
theorem c1_counterexample : formatSong "Chorus|\nLa la" ≠ "Chorus:\nLa la" := by
  decide

/-- Claim C1 as amended: the line Chorus-bar contains the reserved
chord symbol bar, the chord-line test precedes the section-label test
in format_song, so the line is classified as a chord line and dropped;
the input normalizes to just the second line. -/
theorem c1_amended : formatSong "Chorus|\nLa la" = "La la" := by
  decide

/-- Claim C2, counterexample: the numbered-section rewrite does not
translate the Russian kind word to Verse. -/
theorem c2_counterexample : formatSong "1 куплет\nHello" ≠ "Verse 1:\nHello" := by
  decide

/-- Claim C2 as amended: the numbered-section rewrite keeps the
matched kind word, capitalized, so the Russian input rewrites to the
capitalized Russian kind followed by the ordinal and a colon. -/
theorem c2_amended : formatSong "1 куплет\nHello" = "Куплет 1:\nHello" := by
  decide

/-! ## Claim C6: characterization of chord lines -/

/-- Claim C6: a non-blank line is a chord line exactly when every
whitespace-separated token matches the chord grammar or contains a
reserved chord symbol; the line Am G C is a chord line and the line
Am G Caesar is not. -/
theorem c6_chord_line_iff :
    (∀ l : List Char, trimL l ≠ [] →
      (isChordLine l = true ↔
        ∀ t ∈ splitWs (trimL l),
          chordRegexMatch t = true ∨
            ∃ s ∈ chordSyms, containsSeq s t = true)) ∧
    isChordLine "Am G C".data = true ∧
    isChordLine "Am G Caesar".data = false := by
  refine ⟨fun l hl => ?_, by decide, by decide⟩
  unfold isChordLine
  rw [if_neg hl]
  rw [List.all_eq_true]
  constructor
  · intro h t ht
    have := h t ht
    unfold chordTok at this
    rcases Bool.or_eq_true _ _ |>.mp this with h1 | h1
    · exact Or.inl h1
    · right
      rcases List.any_eq_true.mp h1 with ⟨s, hs, hst⟩
      exact ⟨s, hs, hst⟩
  · intro h t ht
    unfold chordTok
    rcases h t ht with h1 | ⟨s, hs, hst⟩
    · exact Bool.or_eq_true _ _ |>.mpr (Or.inl h1)
    · exact Bool.or_eq_true _ _ |>.mpr (Or.inr (List.any_eq_true.mpr ⟨s, hs, hst⟩))

/-- Witness for claim C6 at a concrete non-blank line. -/
theorem c6_witness :
    trimL "Am G C".data ≠ [] ∧
      (isChordLine "Am G C".data = true ↔
        ∀ t ∈ splitWs (trimL "Am G C".data),
          chordRegexMatch t = true ∨
            ∃ s ∈ chordSyms, containsSeq s t = true) :=
  ⟨by decide, c6_chord_line_iff.1 "Am G C".data (by decide)⟩


/-! ## Claims C4, C9, C3: the font-fit search -/

/-- The coarse phase makes at most as many queries as it has fuel. -/
theorem coarseF_len (oracle : ℚ → ℕ) (minF : ℚ) :
    ∀ n s, (coarseF oracle minF n s).2.length ≤ n := by
  intro n
  induction n with
  | zero => intro s; simp [coarseF]
  | succ n ih =>
    intro s
    unfold coarseF
    split
    · split
      · simp
      · simpa using ih (s - 1/2)
    · simp

/-- The additional-reduction phase makes at most as many queries as it
has remaining attempts. -/
theorem addPhase_len (oracle : ℚ → ℕ) (minF : ℚ) :
    ∀ b s, (addPhase oracle minF s b).2.length ≤ b := by
  intro b
  induction b with
  | zero => intro s; simp [addPhase]
  | succ b ih =>
    intro s
    unfold addPhase
    split
    · simp
    · split
      · simp
      · split
        · simp
        · simpa using Nat.succ_le_succ (ih (s - 1/2))

/-- Claim C4: calling fit with the floor equal to the start size makes
exactly one oracle query, at the floor, and returns that page count
with the floor flag set. -/
theorem c4_floor_equals_start (oracle : ℚ → ℕ) (minF : ℚ) :
    fitGo oracle minF minF =
      { chosen := minF, pages := oracle minF, hitFloor := true,
        coarseTr := [], midSize := minF, addTr := [] } ∧
    fitQueries (fitGo oracle minF minF) = [minF] := by
  have hfuel : ((Int.ceil ((minF - minF) * 2)).toNat) = 0 := by
    norm_num
  have hcoarse :
      coarseF oracle minF ((Int.ceil ((minF - minF) * 2)).toNat) minF
        = (minF, []) := by
    rw [hfuel]
    rfl
  have hclamp : minF - 1/2 < minF := by linarith
  have hmain : fitGo oracle minF minF =
      { chosen := minF, pages := oracle minF, hitFloor := true,
        coarseTr := [], midSize := minF, addTr := [] } := by
    unfold fitGo
    rw [hcoarse]
    unfold fitAfterCoarse
    split
    · simp [addPhase, if_pos hclamp]
    · simp
  exact ⟨hmain, by rw [hmain]; rfl⟩

/-- Claim C9: for every oracle and every floor and start size, the fit
search performs a bounded number of oracle queries: at most the number
of coarse steps from start down to the floor, plus the one
intermediate rendering, plus the ten-attempt budget of the
additional-reduction phase. -/
theorem c9_bounded_queries (oracle : ℚ → ℕ) (minF startF : ℚ) :
    (fitQueries (fitGo oracle minF startF)).length ≤
      (Int.ceil ((startF - minF) * 2)).toNat + 11 := by
  unfold fitGo fitQueries fitAfterCoarse
  split
  · simp only [List.length_append, List.length_cons]
    have h1 := coarseF_len oracle minF
      ((Int.ceil ((startF - minF) * 2)).toNat) startF
    have h2 := addPhase_len oracle minF 10
      (coarseF oracle minF ((Int.ceil ((startF - minF) * 2)).toNat) startF).1
    omega
  · simp only [List.length_append, List.length_cons, List.length_nil]
    have h1 := coarseF_len oracle minF
      ((Int.ceil ((startF - minF) * 2)).toNat) startF
    omega

/-- When the first decrement of the additional-reduction phase falls
below the floor, the size is clamped to the floor and the phase stops
at once, with no further oracle query. -/
theorem addPhase_clamp (oracle : ℚ → ℕ) (minF s : ℚ) (b : ℕ)
    (h : s - 1/2 < minF) :
    addPhase oracle minF s (b + 1) = (minF, []) := by
  unfold addPhase
  rw [if_pos h]

/-- Trace characterization of the additional-reduction phase: the
i-th query happens at the start size lowered by (i+1) halves, never
below the floor, and the phase continues past a query only when that
query did not report one page and was strictly above the floor. -/
theorem addPhase_trace (oracle : ℚ → ℕ) (minF : ℚ) :
    ∀ b s i, i < (addPhase oracle minF s b).2.length →
      (addPhase oracle minF s b).2.get? i = some (s - ((i : ℚ) + 1) / 2) ∧
      minF ≤ s - ((i : ℚ) + 1) / 2 ∧
      (i + 1 < (addPhase oracle minF s b).2.length →
        oracle (s - ((i : ℚ) + 1) / 2) ≠ 1 ∧ minF < s - ((i : ℚ) + 1) / 2) := by
  intro b
  induction b with
  | zero => intro s i h; simp [addPhase] at h
  | succ b ih =>
    intro s i h
    unfold addPhase at h ⊢
    by_cases h1 : s - 1/2 < minF
    · rw [if_pos h1] at h
      simp at h
    · rw [if_neg h1] at h ⊢
      by_cases h2 : oracle (s - 1/2) = 1
      · rw [if_pos h2] at h ⊢
        have hi : i = 0 := by simpa using Nat.lt_one_iff.mp (by simpa using h)
        subst hi
        refine ⟨by norm_num, by push_neg at h1; linarith, fun hcon => ?_⟩
        simp at hcon
      · rw [if_neg h2] at h ⊢
        by_cases h3 : s - 1/2 ≤ minF
        · rw [if_pos h3] at h ⊢
          have hi : i = 0 := by simpa using Nat.lt_one_iff.mp (by simpa using h)
          subst hi
          refine ⟨by norm_num, by push_neg at h1; linarith, fun hcon => ?_⟩
          simp at hcon
        · rw [if_neg h3] at h ⊢
          match i with
          | 0 =>
            refine ⟨by norm_num, by push_neg at h1; linarith, fun _ => ?_⟩
            exact ⟨by simpa using h2, by push_neg at h3; simpa using h3⟩
          | i + 1 =>
            have h4 : i < (addPhase oracle minF (s - 1/2) b).2.length := by
              simpa using h
            have hrec := ih (s - 1/2) i h4
            have harith : s - 1/2 - ((i : ℚ) + 1) / 2 = s - ((i : ℚ) + 1 + 1) / 2 := by
              ring
            refine ⟨?_, ?_, ?_⟩
            · have := hrec.1
              rw [harith] at this
              simpa [Nat.cast_add, Nat.cast_one] using this
            · have := hrec.2.1
              rw [harith] at this
              simpa [Nat.cast_add, Nat.cast_one] using this
            · intro h5
              have h6 : i + 1 < (addPhase oracle minF (s - 1/2) b).2.length := by
                simpa using h5
              have := hrec.2.2 h6
              rw [harith] at this
              simpa [Nat.cast_add, Nat.cast_one] using this

/-- Claim C3 as amended: in the additional-reduction phase (attempt
budget 10), a decrement that would go below the floor clamps the size
to the floor and stops the phase immediately, with no oracle query at
the clamped size; otherwise the oracle is re-queried at each
decremented size, never below the floor, and the phase continues past
a query only while the oracle reports more than one page strictly
above the floor; the number of queries never exceeds the budget. -/
theorem c3_additional_reduction (oracle : ℚ → ℕ) (minF s : ℚ) :
    (s - 1/2 < minF → addPhase oracle minF s 10 = (minF, [])) ∧
    (addPhase oracle minF s 10).2.length ≤ 10 ∧
    (∀ i, i < (addPhase oracle minF s 10).2.length →
      (addPhase oracle minF s 10).2.get? i = some (s - ((i : ℚ) + 1) / 2) ∧
      minF ≤ s - ((i : ℚ) + 1) / 2) ∧
    (∀ i, i + 1 < (addPhase oracle minF s 10).2.length →
      oracle (s - ((i : ℚ) + 1) / 2) ≠ 1 ∧ minF < s - ((i : ℚ) + 1) / 2) :=
  ⟨fun h => addPhase_clamp oracle minF s 9 h,
   addPhase_len oracle minF 10 s,
   fun i h => ⟨(addPhase_trace oracle minF 10 s i h).1,
     (addPhase_trace oracle minF 10 s i h).2.1⟩,
   fun i h => (addPhase_trace oracle minF 10 s i
     (Nat.lt_of_succ_lt h)).2.2 h⟩

/-- Witness for claim C3 at a concrete oracle and floor: starting the
phase already at the floor, the first decrement would go below it, so
the phase clamps and stops with an empty query trace. -/
theorem c3_witness :
    ((6 : ℚ) - 1/2 < 6) ∧ addPhase (fun _ => 2) 6 6 10 = (6, []) :=
  ⟨by norm_num, (c3_additional_reduction (fun _ => 2) 6 6).1 (by norm_num)⟩

/-- With an oracle that never reports one page, the coarse phase runs
through all its fuel, halving down each step. -/
theorem coarseF_nofit (oracle : ℚ → ℕ) (minF : ℚ)
    (hnf : ∀ q, oracle q ≠ 1) :
    ∀ n s, (∀ i : ℕ, i < n → minF < s - (i : ℚ) / 2) →
      (coarseF oracle minF n s).1 = s - (n : ℚ) / 2 := by
  intro n
  induction n with
  | zero => intro s _; simp [coarseF]
  | succ n ih =>
    intro s h
    have h0 : minF < s := by simpa using h 0 (Nat.succ_pos n)
    have hrec : ∀ i : ℕ, i < n → minF < s - 1/2 - (i : ℚ) / 2 := by
      intro i hi
      have := h (i + 1) (by omega)
      push_cast at this ⊢
      linarith
    unfold coarseF
    rw [if_pos h0, if_neg (hnf s)]
    have := ih (s - 1/2) hrec
    rw [this]
    push_cast
    ring

/-- Claim C3, counterexample: with an oracle that always reports two
pages, floor 6 and start 30, the additional-reduction phase ends by
clamping (the floor flag is set and the chosen size is the floor) yet
its query trace is empty, so the oracle is never re-queried at the
clamped size as the claim asserts; the reported page count comes from
the rendering made before the phase. -/
theorem c3_counterexample :
    (fitGo (fun _ => 2) 6 30).hitFloor = true ∧
    (fitGo (fun _ => 2) 6 30).chosen = 6 ∧
    (fitGo (fun _ => 2) 6 30).addTr = [] ∧
    (fitGo (fun _ => 2) 6 30).pages = 2 := by
  have hnf : ∀ q : ℚ, (fun _ => (2 : ℕ)) q ≠ 1 := fun _ => by norm_num
  have hfuel : ((Int.ceil (((30 : ℚ) - 6) * 2)).toNat) = 48 := by
    have h48 : ((30 : ℚ) - 6) * 2 = ((48 : ℤ) : ℚ) := by norm_num
    rw [h48, Int.ceil_intCast]
    rfl
  have hcoarse : (coarseF (fun _ => 2) 6 48 30).1 = 6 := by
    have hside : ∀ i : ℕ, i < 48 → (6 : ℚ) < 30 - (i : ℚ) / 2 := by
      intro i hi
      have : (i : ℚ) ≤ 47 := by exact_mod_cast Nat.le_of_lt_succ hi
      linarith
    have := coarseF_nofit (fun _ => 2) 6 hnf 48 30 hside
    rw [this]
    norm_num
  have hclamp : addPhase (fun _ => 2) 6 6 10 = (6, []) :=
    addPhase_clamp (fun _ => 2) 6 6 9 (by norm_num)
  unfold fitGo
  rw [hfuel, hcoarse]
  unfold fitAfterCoarse
  rw [if_pos (by norm_num : 1 < ((fun _ => 2 : ℚ → ℕ) (6 : ℚ)))]
  simp [hclamp]

/-! ## Character lemmas -/

/-- Decoding a valid code point gives it back. -/
theorem toNat_char_ofNat (n : ℕ) (h : n.isValidChar) :
    (Char.ofNat n).toNat = n := by
  unfold Char.ofNat
  rw [dif_pos h]
  unfold Char.ofNatAux Char.toNat
  simp only [UInt32.toNat]
  simp [BitVec.toNat_ofNatLt]

/-- Characters with equal code points are equal. -/
theorem char_toNat_inj {a b : Char} (h : a.toNat = b.toNat) : a = b := by
  apply Char.ext
  exact UInt32.ext h

/-- lowerNat stays inside the valid code points. -/
theorem lowerNat_valid {n : ℕ} (h : n.isValidChar) :
    (lowerNat n).isValidChar := by
  unfold lowerNat
  rcases h with h | h
  · left; split_ifs <;> omega
  · have h1 : 0xE000 ≤ n := h.1
    split_ifs <;> omega

/-- upperNat stays inside the valid code points. -/
theorem upperNat_valid {n : ℕ} (h : n.isValidChar) :
    (upperNat n).isValidChar := by
  unfold upperNat
  rcases h with h | h
  · left; split_ifs <;> omega
  · have h1 : 0xE000 ≤ n := h.1
    split_ifs <;> omega

/-- Code point of the lower-cased character. -/
theorem toNat_pyLower (c : Char) : (pyLower c).toNat = lowerNat c.toNat :=
  toNat_char_ofNat _ (lowerNat_valid c.valid)

/-- Code point of the upper-cased character. -/
theorem toNat_pyUpper (c : Char) : (pyUpper c).toNat = upperNat c.toNat :=
  toNat_char_ofNat _ (upperNat_valid c.valid)

/-- Lower-casing after upper-casing is plain lower-casing
(on the code-point level). -/
theorem lowerNat_upperNat (n : ℕ) : lowerNat (upperNat n) = lowerNat n := by
  unfold lowerNat upperNat
  split_ifs <;> omega

/-- Lower-casing is idempotent on the code-point level. -/
theorem lowerNat_idem (n : ℕ) : lowerNat (lowerNat n) = lowerNat n := by
  unfold lowerNat
  split_ifs <;> omega

/-- Lower-casing after upper-casing is plain lower-casing. -/
theorem pyLower_pyUpper (c : Char) : pyLower (pyUpper c) = pyLower c := by
  apply char_toNat_inj
  rw [toNat_pyLower, toNat_pyLower, toNat_pyUpper, lowerNat_upperNat]

/-- pyLower is idempotent. -/
theorem pyLower_idem (c : Char) : pyLower (pyLower c) = pyLower c := by
  apply char_toNat_inj
  rw [toNat_pyLower, toNat_pyLower, lowerNat_idem]

/-- Digits are untouched by lower-casing. -/
theorem isAsciiDigit_pyLower (c : Char) :
    isAsciiDigit (pyLower c) = isAsciiDigit c := by
  unfold isAsciiDigit
  rw [toNat_pyLower, Bool.eq_iff_iff]
  simp only [Bool.and_eq_true, decide_eq_true_eq]
  unfold lowerNat
  split_ifs <;> omega

/-- Digits are untouched by upper-casing. -/
theorem isAsciiDigit_pyUpper (c : Char) :
    isAsciiDigit (pyUpper c) = isAsciiDigit c := by
  unfold isAsciiDigit
  rw [toNat_pyUpper, Bool.eq_iff_iff]
  simp only [Bool.and_eq_true, decide_eq_true_eq]
  unfold upperNat
  split_ifs <;> omega

/-! ## Whitespace and trimming lemmas -/

/-- Equality of characters through code points. -/
theorem char_eq_iff (a b : Char) : a = b ↔ a.toNat = b.toNat :=
  ⟨fun h => by rw [h], char_toNat_inj⟩

/-- The last element of a non-empty suffix is the last element of the
whole list. -/
theorem getLast?_of_suffix {l m : List Char} (h : l <:+ m) (hne : l ≠ []) :
    l.getLast? = m.getLast? := by
  obtain ⟨t, rfl⟩ := h
  rw [List.getLast?_append_of_ne_nil _ hne]

/-- dropWhile is the identity when the head fails the test. -/
theorem dropWhile_eq_self_of_head {p : Char → Bool} {l : List Char}
    (hh : ∀ c, l.head? = some c → p c = false) :
    l.dropWhile p = l := by
  cases l with
  | nil => rfl
  | cons c rest =>
    rw [List.dropWhile_cons, if_neg]
    simp [hh c rfl]

/-- A list whose first and last characters are not whitespace is
already trimmed. -/
theorem trimL_eq_self {l : List Char}
    (hh : ∀ c, l.head? = some c → pySpace c = false)
    (hl : ∀ c, l.getLast? = some c → pySpace c = false) :
    trimL l = l := by
  unfold trimL
  rw [dropWhile_eq_self_of_head hh]
  rw [dropWhile_eq_self_of_head (fun c hc => hl c (by rwa [List.head?_reverse] at hc))]
  exact List.reverse_reverse l

/-- Characters of the trimmed list are characters of the list. -/
theorem mem_trimL {c : Char} {l : List Char} (h : c ∈ trimL l) : c ∈ l := by
  unfold trimL at h
  rw [List.mem_reverse] at h
  have h1 := (List.dropWhile_sublist (l := (l.dropWhile pySpace).reverse) pySpace).mem h
  rw [List.mem_reverse] at h1
  exact (List.dropWhile_sublist pySpace).mem h1

/-- The head of a non-empty trimmed list is not whitespace. -/
theorem trimL_head {l : List Char} {c : Char}
    (h : (trimL l).head? = some c) : pySpace c = false := by
  unfold trimL at h
  rw [List.head?_reverse] at h
  have hne : (l.dropWhile pySpace).reverse.dropWhile pySpace ≠ [] := by
    intro hcon
    rw [hcon] at h
    simp at h
  rw [getLast?_of_suffix (List.dropWhile_suffix pySpace) hne,
    List.getLast?_reverse] at h
  have := List.head?_dropWhile_not pySpace l
  rw [h] at this
  exact this

/-- The last character of a non-empty trimmed list is not whitespace. -/
theorem trimL_getLast {l : List Char} {c : Char}
    (h : (trimL l).getLast? = some c) : pySpace c = false := by
  unfold trimL at h
  rw [List.getLast?_reverse] at h
  have := List.head?_dropWhile_not pySpace (l.dropWhile pySpace).reverse
  rw [h] at this
  exact this

/-- Trimming is idempotent. -/
theorem trimL_idem (l : List Char) : trimL (trimL l) = trimL l :=
  trimL_eq_self (fun _ h => trimL_head h) (fun _ h => trimL_getLast h)

/-- The trimmed list is empty exactly when every character is
whitespace. -/
theorem trimL_eq_nil_iff {l : List Char} :
    trimL l = [] ↔ ∀ c ∈ l, pySpace c = true := by
  unfold trimL
  constructor
  · intro h c hc
    by_contra hcon
    have hcon2 : pySpace c = false := by
      cases hp : pySpace c
      · rfl
      · exact absurd hp hcon
    have h1 : l.dropWhile pySpace ≠ [] := by
      intro hnil
      have := List.dropWhile_eq_nil_iff.mp hnil c hc
      rw [hcon2] at this
      exact Bool.false_ne_true this
    cases hm : l.dropWhile pySpace with
    | nil => exact h1 hm
    | cons a rest =>
      have ha : pySpace a = false := by
        have := List.head?_dropWhile_not pySpace l
        rw [hm] at this
        exact this
      have hmem : a ∈ (l.dropWhile pySpace).reverse := by
        rw [List.mem_reverse, hm]
        exact List.mem_cons_self a rest
      have h2 : (l.dropWhile pySpace).reverse.dropWhile pySpace ≠ [] := by
        intro hnil
        have := List.dropWhile_eq_nil_iff.mp hnil a hmem
        rw [ha] at this
        exact Bool.false_ne_true this
      rw [List.reverse_eq_nil_iff] at h
      exact h2 h
  · intro h
    have h1 : l.dropWhile pySpace = [] := by
      rw [List.dropWhile_eq_nil_iff]
      exact h
    rw [h1]
    rfl

/-! ## Line splitting and joining lemmas -/

/-- Splitting always yields at least one line. -/
theorem splitLines_ne_nil (l : List Char) : splitLines l ≠ [] := by
  cases l with
  | nil => simp [splitLines]
  | cons c rest =>
    unfold splitLines
    cases h : splitLines rest with
    | nil => simp
    | cons x xs =>
      by_cases hc : c = '\n' <;> simp [hc]

/-- Characters of any line of the split are characters of the
input. -/
theorem mem_of_mem_splitLines {l : List Char} {x : List Char} {c : Char}
    (hx : x ∈ splitLines l) (hc : c ∈ x) : c ∈ l := by
  induction l generalizing x with
  | nil =>
    unfold splitLines at hx
    simp at hx
    subst hx
    simp at hc
  | cons a rest ih =>
    unfold splitLines at hx
    rcases hsp : splitLines rest with _ | ⟨y, ys⟩
    · exact absurd hsp (splitLines_ne_nil rest)
    · rw [hsp] at hx
      dsimp only at hx
      by_cases ha : a = '\n'
      · rw [if_pos ha] at hx
        rcases List.mem_cons.mp hx with h1 | h1
        · subst h1; simp at hc
        · exact List.mem_cons_of_mem _ (ih (by rw [hsp]; exact h1) hc)
      · rw [if_neg ha] at hx
        rcases List.mem_cons.mp hx with h1 | h1
        · subst h1
          rcases List.mem_cons.mp hc with h2 | h2
          · exact h2 ▸ List.mem_cons_self a rest
          · exact List.mem_cons_of_mem _ (ih (by rw [hsp]; exact List.mem_cons_self y ys) h2)
        · exact List.mem_cons_of_mem _
            (ih (by rw [hsp]; exact List.mem_cons_of_mem _ h1) hc)

/-- No line of the split contains a newline. -/
theorem newline_not_mem_splitLines {l : List Char} {x : List Char}
    (hx : x ∈ splitLines l) : '\n' ∉ x := by
  induction l generalizing x with
  | nil =>
    unfold splitLines at hx
    simp at hx
    subst hx
    simp
  | cons a rest ih =>
    unfold splitLines at hx
    rcases hsp : splitLines rest with _ | ⟨y, ys⟩
    · exact absurd hsp (splitLines_ne_nil rest)
    · rw [hsp] at hx
      dsimp only at hx
      by_cases ha : a = '\n'
      · rw [if_pos ha] at hx
        rcases List.mem_cons.mp hx with h1 | h1
        · subst h1; simp
        · exact ih (by rw [hsp]; exact h1)
      · rw [if_neg ha] at hx
        rcases List.mem_cons.mp hx with h1 | h1
        · subst h1
          intro hcon
          rcases List.mem_cons.mp hcon with h2 | h2
          · exact ha h2.symm
          · exact ih (by rw [hsp]; exact List.mem_cons_self y ys) h2
        · exact ih (by rw [hsp]; exact List.mem_cons_of_mem _ h1)

/-- A newline-free list splits into itself alone. -/
theorem splitLines_of_no_newline {l : List Char} (h : '\n' ∉ l) :
    splitLines l = [l] := by
  induction l with
  | nil => rfl
  | cons a rest ih =>
    unfold splitLines
    have ha : a ≠ '\n' := fun hcon => h (hcon ▸ List.mem_cons_self a rest)
    have hrest : '\n' ∉ rest := fun hcon => h (List.mem_cons_of_mem _ hcon)
    rw [ih hrest]
    dsimp only
    rw [if_neg ha]

/-- Splitting after a newline-free first line. -/
theorem splitLines_append_newline {x r : List Char} (hx : '\n' ∉ x) :
    splitLines (x ++ '\n' :: r) = x :: splitLines r := by
  induction x with
  | nil =>
    show splitLines ('\n' :: r) = [] :: splitLines r
    conv_lhs => unfold splitLines
    cases hsp : splitLines r with
    | nil => exact absurd hsp (splitLines_ne_nil r)
    | cons y ys => simp
  | cons a rest ih =>
    have ha : a ≠ '\n' := fun hcon => hx (hcon ▸ List.mem_cons_self a rest)
    have hrest : '\n' ∉ rest := fun hcon => hx (List.mem_cons_of_mem _ hcon)
    have hih := ih hrest
    show splitLines (a :: (rest ++ '\n' :: r)) = (a :: rest) :: splitLines r
    conv_lhs => unfold splitLines
    rw [hih]
    dsimp only
    rw [if_neg ha]

/-- Joining a list of lines and splitting again recovers the lines,
as long as there is at least one line and none contains a newline. -/
theorem splitLines_joinLines {ls : List (List Char)} (hne : ls ≠ [])
    (h : ∀ x ∈ ls, '\n' ∉ x) : splitLines (joinLines ls) = ls := by
  induction ls with
  | nil => exact absurd rfl hne
  | cons x rest ih =>
    cases rest with
    | nil =>
      show splitLines (joinLines [x]) = [x]
      have : joinLines [x] = x := by simp [joinLines]
      rw [this]
      exact splitLines_of_no_newline (h x (List.mem_cons_self x []))
    | cons y ys =>
      have hjoin : joinLines (x :: y :: ys) = x ++ '\n' :: joinLines (y :: ys) := by
        simp [joinLines, List.intersperse]
      rw [hjoin,
        splitLines_append_newline (h x (List.mem_cons_self x _)),
        ih (by simp) (fun z hz => h z (List.mem_cons_of_mem _ hz))]

/-! ## Entity-stripping lemmas -/

/-- The scanner only ever drops characters. -/
theorem mem_cleanF {c : Char} : ∀ {fuel : ℕ} {l : List Char},
    c ∈ cleanF fuel l → c ∈ l := by
  intro fuel
  induction fuel with
  | zero => intro l h; exact h
  | succ n ih =>
    intro l h
    cases l with
    | nil => simp [cleanF] at h
    | cons a rest =>
      unfold cleanF at h
      dsimp only at h
      by_cases ha : a = '&'
      · rw [if_pos ha] at h
        split at h
        · have := ih h
          exact List.mem_cons_of_mem _ (List.mem_of_mem_drop this)
        · rcases List.mem_cons.mp h with h1 | h1
          · exact h1 ▸ List.mem_cons_self a rest
          · exact List.mem_cons_of_mem _ (ih h1)
      · rw [if_neg ha] at h
        rcases List.mem_cons.mp h with h1 | h1
        · exact h1 ▸ List.mem_cons_self a rest
        · exact List.mem_cons_of_mem _ (ih h1)

/-- Without an ampersand the scanner is the identity. -/
theorem cleanF_of_no_amp : ∀ {fuel : ℕ} {l : List Char},
    '&' ∉ l → cleanF fuel l = l := by
  intro fuel
  induction fuel with
  | zero => intro l _; rfl
  | succ n ih =>
    intro l h
    cases l with
    | nil => rfl
    | cons a rest =>
      have ha : a ≠ '&' := fun hcon => h (hcon ▸ List.mem_cons_self a rest)
      unfold cleanF
      dsimp only
      rw [if_neg ha, ih (fun hcon => h (List.mem_cons_of_mem _ hcon))]

/-- Without an ampersand, entity stripping is the identity. -/
theorem cleanHtml_of_no_amp {l : List Char} (h : '&' ∉ l) :
    cleanHtml l = l :=
  cleanF_of_no_amp h

/-! ## Claim C10: digit-initial lines become labeled sections -/

/-- Lower-casing fixes digits. -/
theorem pyLower_digit {d : Char} (h : isAsciiDigit d = true) : pyLower d = d := by
  apply char_toNat_inj
  rw [toNat_pyLower]
  have h1 : 48 ≤ d.toNat ∧ d.toNat ≤ 57 := by
    simpa [isAsciiDigit] using h
  unfold lowerNat
  split_ifs <;> omega

/-- A digit is one of the ten digit characters. -/
theorem digit_cases {d : Char} (h : isAsciiDigit d = true) :
    d = '0' ∨ d = '1' ∨ d = '2' ∨ d = '3' ∨ d = '4' ∨
    d = '5' ∨ d = '6' ∨ d = '7' ∨ d = '8' ∨ d = '9' := by
  have h1 : 48 ≤ d.toNat ∧ d.toNat ≤ 57 := by
    simpa [isAsciiDigit] using h
  have h2 : d.toNat = 48 ∨ d.toNat = 49 ∨ d.toNat = 50 ∨ d.toNat = 51 ∨
      d.toNat = 52 ∨ d.toNat = 53 ∨ d.toNat = 54 ∨ d.toNat = 55 ∨
      d.toNat = 56 ∨ d.toNat = 57 := by omega
  rcases h2 with h|h|h|h|h|h|h|h|h|h
  · exact Or.inl (char_toNat_inj (by rw [h]; rfl))
  · exact Or.inr (Or.inl (char_toNat_inj (by rw [h]; rfl)))
  · exact Or.inr (Or.inr (Or.inl (char_toNat_inj (by rw [h]; rfl))))
  · exact Or.inr (Or.inr (Or.inr (Or.inl (char_toNat_inj (by rw [h]; rfl)))))
  · exact Or.inr (Or.inr (Or.inr (Or.inr (Or.inl
      (char_toNat_inj (by rw [h]; rfl))))))
  · exact Or.inr (Or.inr (Or.inr (Or.inr (Or.inr (Or.inl
      (char_toNat_inj (by rw [h]; rfl)))))))
  · exact Or.inr (Or.inr (Or.inr (Or.inr (Or.inr (Or.inr (Or.inl
      (char_toNat_inj (by rw [h]; rfl))))))))
  · exact Or.inr (Or.inr (Or.inr (Or.inr (Or.inr (Or.inr (Or.inr (Or.inl
      (char_toNat_inj (by rw [h]; rfl)))))))))
  · exact Or.inr (Or.inr (Or.inr (Or.inr (Or.inr (Or.inr (Or.inr (Or.inr
      (Or.inl (char_toNat_inj (by rw [h]; rfl))))))))))
  · exact Or.inr (Or.inr (Or.inr (Or.inr (Or.inr (Or.inr (Or.inr (Or.inr
      (Or.inr (char_toNat_inj (by rw [h]; rfl))))))))))

/-- A trimmed line whose first character is a digit passes the
section-label test, because the label set contains every bare digit
prefix. -/
theorem digit_isSectionLabel {l : List Char} {d : Char}
    (hd : (trimL l).head? = some d) (hdig : isAsciiDigit d = true) :
    isSectionLabel l = true := by
  obtain ⟨tail, htl⟩ : ∃ tail, trimL l = d :: tail := by
    cases htr : trimL l with
    | nil => rw [htr] at hd; simp at hd
    | cons a rest =>
      rw [htr] at hd
      simp at hd
      exact ⟨rest, by rw [hd]⟩
  unfold isSectionLabel
  rw [List.any_eq_true]
  refine ⟨[d, '|'], ?_, ?_⟩
  · rcases digit_cases hdig with h|h|h|h|h|h|h|h|h|h <;> subst h <;> decide
  · have hne : (d = ':' || d = '|') = false := by
      rcases digit_cases hdig with h|h|h|h|h|h|h|h|h|h <;> subst h <;> decide
    have hstrip : rstripCP [d, '|'] = [d] := by
      unfold rstripCP
      simp [List.dropWhile, hne]
    rw [hstrip, htl]
    simp [lstarts, pyLower_digit hdig]

/-- Characters of the delimiter-stripped list are characters of the
list. -/
theorem mem_stripDelim {c : Char} {l : List Char} (h : c ∈ stripDelim l) :
    c ∈ l := by
  unfold stripDelim at h
  rcases hlast : l.getLast? with _ | a
  · rw [hlast] at h
    exact h
  · rw [hlast] at h
    dsimp only at h
    split at h
    · exact (List.dropLast_sublist l).mem h
    · exact h

/-- The head survives dropping the last element of a longer list. -/
theorem head?_dropLast {l : List Char} (h : l.dropLast ≠ []) :
    l.dropLast.head? = l.head? := by
  cases l with
  | nil => simp at h
  | cons a rest =>
    cases rest with
    | nil => simp at h
    | cons b r2 => rfl

/-- The last element of a list with a colon appended. -/
theorem getLast?_append_colon (x : List Char) :
    (x ++ [':']).getLast? = some ':' := by
  simp

/-- The rewritten label line is already trimmed when the original line
was. -/
theorem trimL_stripDelim_colon {t : List Char}
    (ht : ∀ c, t.head? = some c → pySpace c = false) :
    trimL (stripDelim t ++ [':']) = stripDelim t ++ [':'] := by
  apply trimL_eq_self
  · intro c hc
    cases hsd : stripDelim t with
    | nil =>
      rw [hsd] at hc
      simp at hc
      subst hc
      rfl
    | cons a rest =>
      rw [hsd] at hc
      simp at hc
      subst hc
      have hhead : t.head? = some a := by
        unfold stripDelim at hsd
        rcases hlast : t.getLast? with _ | b
        · rw [hlast] at hsd
          dsimp only at hsd
          rw [hsd]
          rfl
        · rw [hlast] at hsd
          dsimp only at hsd
          split at hsd
          · rw [← head?_dropLast (by rw [hsd]; simp), hsd]
            rfl
          · rw [hsd]
            rfl
      exact ht a hhead
  · intro c hc
    rw [getLast?_append_colon] at hc
    cases hc
    rfl

/-- format_lines passes a single trimmed, non-blank line that is not
the literal double slash through unchanged. -/
theorem formatLinesL_single {u : List Char} (hnl : '\n' ∉ u)
    (htr : trimL u = u) (hne : u ≠ []) (hslash : u ≠ ['/', '/']) :
    formatLinesL u = u := by
  unfold formatLinesL
  rw [if_neg (by rwa [htr])]
  rw [splitLines_of_no_newline hnl]
  unfold flGo
  dsimp only
  rw [htr, if_neg hslash]
  simp [flGo, joinLines, htr]

/-- Claim C10: a single-line input whose trimmed, entity-stripped form
begins with a decimal digit and is neither blank, nor a chord line,
nor a numbered-section match, is treated as a labeled section: a
single trailing colon or bar is stripped and a colon appended. -/
theorem c10_digit_labeled_section (s : String) (d : Char)
    (hnl : '\n' ∉ s.data)
    (hd : (trimL (cleanHtml s.data)).head? = some d)
    (hdig : isAsciiDigit d = true)
    (hchord : isChordLine (trimL (cleanHtml s.data)) = false)
    (hnum : isNumberedSection (trimL (cleanHtml s.data)) = none) :
    formatSong s =
      String.mk (stripDelim (trimL (cleanHtml s.data)) ++ [':']) := by
  have htne : trimL (cleanHtml s.data) ≠ [] := by
    intro hcon
    rw [hcon] at hd
    simp at hd
  have hguard : trimL s.data ≠ [] := by
    intro hcon
    have hall := trimL_eq_nil_iff.mp hcon
    have hamp : '&' ∉ s.data := fun hmem => absurd (hall '&' hmem) (by decide)
    rw [cleanHtml_of_no_amp hamp, hcon] at htne
    exact htne rfl
  have hnl2 : '\n' ∉ cleanHtml s.data := fun hm => hnl (mem_cleanF hm)
  have hproc : procLine (cleanHtml s.data) =
      some (stripDelim (trimL (cleanHtml s.data)) ++ [':']) := by
    unfold procLine
    dsimp only
    rw [if_neg htne, hchord]
    simp only [Bool.false_eq_true, if_false]
    rw [hnum]
    dsimp only
    simp [digit_isSectionLabel (by rwa [trimL_idem]) hdig]
  have hhead : ∀ c, (trimL (cleanHtml s.data)).head? = some c →
      pySpace c = false := by
    intro c hc
    exact trimL_head hc
  have htrimu : trimL (stripDelim (trimL (cleanHtml s.data)) ++ [':']) =
      stripDelim (trimL (cleanHtml s.data)) ++ [':'] :=
    trimL_stripDelim_colon hhead
  have hnlu : '\n' ∉ stripDelim (trimL (cleanHtml s.data)) ++ [':'] := by
    intro hm
    rcases List.mem_append.mp hm with h1 | h1
    · exact hnl2 (mem_trimL (mem_stripDelim h1))
    · simp at h1
  have hslash : stripDelim (trimL (cleanHtml s.data)) ++ [':'] ≠ ['/', '/'] := by
    intro hcon
    have := getLast?_append_colon (stripDelim (trimL (cleanHtml s.data)))
    rw [hcon] at this
    simp at this
  unfold formatSong formatSongL
  rw [if_neg hguard, splitLines_of_no_newline hnl2]
  have hfm : List.filterMap procLine [cleanHtml s.data] =
      [stripDelim (trimL (cleanHtml s.data)) ++ [':']] := by
    simp [hproc]
  rw [hfm]
  have hjoin : joinLines [stripDelim (trimL (cleanHtml s.data)) ++ [':']] =
      stripDelim (trimL (cleanHtml s.data)) ++ [':'] := by
    simp [joinLines]
  rw [hjoin, formatLinesL_single hnlu htrimu (by simp) hslash]

/-- Witness for claim C10 on the concrete line 99 bottles, which
normalizes to the same line with a colon appended. -/
theorem c10_witness :
    formatSong "99 bottles" =
      String.mk (stripDelim (trimL (cleanHtml "99 bottles".data)) ++ [':']) ∧
    formatSong "99 bottles" = "99 bottles:" :=
  ⟨c10_digit_labeled_section "99 bottles" '9' (by decide) (by decide)
    (by decide) (by decide) (by decide), by decide⟩

/-! ## Claim C8: chord-and-blank-only inputs normalize to nothing -/

/-- The chord-line test ignores surrounding whitespace. -/
theorem isChordLine_trim (l : List Char) :
    isChordLine (trimL l) = isChordLine l := by
  unfold isChordLine
  rw [trimL_idem]

/-- Claim C8, counterexample: every line of the input q&x2; is blank
or a chord line (its one line contains the reserved repeat marker x2),
yet normalization returns a non-empty result, because entity stripping
runs first and erases the marker. -/
theorem c8_counterexample :
    (∀ l ∈ splitLines "q&x2;".data, trimL l = [] ∨ isChordLine l = true) ∧
    formatSong "q&x2;" ≠ "" := by
  decide

/-- Claim C8 as amended: when every line of the entity-stripped text
is blank or a chord line, normalization returns the empty string. -/
theorem c8_amended (s : String)
    (h : ∀ l ∈ splitLines (cleanHtml s.data),
      trimL l = [] ∨ isChordLine l = true) :
    formatSong s = "" := by
  unfold formatSong formatSongL
  by_cases hg : trimL s.data = []
  · rw [if_pos hg]
  · rw [if_neg hg]
    have hfm : (splitLines (cleanHtml s.data)).filterMap procLine = [] := by
      rw [List.filterMap_eq_nil_iff]
      intro l hl
      rcases h l hl with h1 | h1
      · unfold procLine
        dsimp only
        rw [if_pos h1]
      · have h3 : trimL l ≠ [] := by
          intro hc
          unfold isChordLine at h1
          rw [if_pos hc] at h1
          exact Bool.false_ne_true h1
        unfold procLine
        dsimp only
        rw [if_neg h3, isChordLine_trim, h1]
        simp
    rw [hfm]
    rfl

/-- Witness for claim C8 at a concrete input of one chord line, one
whitespace line and one chord line. -/
theorem c8_witness : formatSong "Am\n \nC7" = "" :=
  c8_amended "Am\n \nC7" (by decide)

/-! ## Claim C7: header spacing in format_lines -/

/-- Joining a single line. -/
theorem joinLines_single (x : List Char) : joinLines [x] = x := by
  simp [joinLines]

/-- Joining at least two lines. -/
theorem joinLines_cons_cons (x y : List Char) (rest : List (List Char)) :
    joinLines (x :: y :: rest) = x ++ '\n' :: joinLines (y :: rest) := by
  simp [joinLines, List.intersperse]

/-- Characters of a line are characters of the joined text. -/
theorem mem_joinLines {c : Char} {x : List Char} :
    ∀ {ls : List (List Char)}, x ∈ ls → c ∈ x → c ∈ joinLines ls := by
  intro ls
  induction ls with
  | nil => intro h; simp at h
  | cons a rest ih =>
    intro hx hc
    cases rest with
    | nil =>
      simp at hx
      subst hx
      rwa [joinLines_single]
    | cons b r2 =>
      rw [joinLines_cons_cons]
      rcases List.mem_cons.mp hx with h1 | h1
      · exact List.mem_append.mpr (Or.inl (h1 ▸ hc))
      · exact List.mem_append.mpr (Or.inr (List.mem_cons_of_mem _ (ih h1 hc)))

/-- The joined text starts with the first line. -/
theorem joinLines_head {x : List Char} (hx : x ≠ [])
    (rest : List (List Char)) :
    (joinLines (x :: rest)).head? = x.head? := by
  cases rest with
  | nil => rw [joinLines_single]
  | cons b r2 =>
    rw [joinLines_cons_cons]
    exact List.head?_append_of_ne_nil _ hx

/-- The joined text ends with the last line, when that line is
non-empty. -/
theorem joinLines_getLast :
    ∀ {ls : List (List Char)} {z : List Char}, ls.getLast? = some z →
      z ≠ [] → (joinLines ls).getLast? = z.getLast? := by
  intro ls
  induction ls with
  | nil => intro z h; simp at h
  | cons a rest ih =>
    intro z hz hzne
    cases rest with
    | nil =>
      simp at hz
      subst hz
      rw [joinLines_single]
    | cons b r2 =>
      rw [List.getLast?_cons_cons] at hz
      have hJ := ih hz hzne
      have hJne : joinLines (b :: r2) ≠ [] := by
        intro hcon
        rw [hcon] at hJ
        simp at hJ
        rcases List.getLast?_eq_none_iff.mp hJ.symm with h
        exact hzne h
      rw [joinLines_cons_cons,
        List.getLast?_append_of_ne_nil _ (List.cons_ne_nil _ _)]
      rw [show ('\n' :: joinLines (b :: r2)).getLast? =
        (joinLines (b :: r2)).getLast? from ?_]
      · exact hJ
      · cases hJl : joinLines (b :: r2) with
        | nil => exact absurd hJl hJne
        | cons u us => rw [List.getLast?_cons_cons]

/-- A header line is not the literal double slash. -/
theorem isHdr_ne_slash {l : List Char} (h : isHdr l = true) :
    l ≠ ['/', '/'] := by
  intro hcon
  rw [hcon] at h
  exact absurd h (by decide)

/-- The loop of format_lines copies a segment of trimmed, non-marker,
non-double-slash lines verbatim, updating the last-appended line. -/
theorem flGo_inert (fh : Bool) :
    ∀ (S T : List (List Char)) (last : Option (List Char)),
      (∀ x ∈ S, trimL x = x ∧ isHdr x = false ∧ x ≠ ['/', '/']) →
      flGo fh last (S ++ T) = S ++ flGo fh (S.getLast?.or last) T := by
  intro S
  induction S with
  | nil => intro T last _; simp
  | cons x S2 ih =>
    intro T last h
    obtain ⟨hx1, hx2, hx3⟩ := h x (List.mem_cons_self x S2)
    have hopt : S2.getLast?.or (some x) = ((x :: S2).getLast?).or last := by
      cases S2 with
      | nil => rfl
      | cons b r2 =>
        rw [List.getLast?_cons_cons]
        cases h2 : (b :: r2).getLast? with
        | none =>
          rcases List.getLast?_eq_none_iff.mp h2 with h3
          exact absurd h3 (List.cons_ne_nil b r2)
        | some z => rfl
    show flGo fh last (x :: (S2 ++ T)) =
      (x :: S2) ++ flGo fh ((x :: S2).getLast?.or last) T
    simp only [flGo]
    rw [hx1, hx2, if_neg hx3]
    simp only [Bool.false_and, Bool.and_false, Bool.false_eq_true, if_false,
      Bool.or_false, List.nil_append]
    rw [ih T (some x) (fun y hy => h y (List.mem_cons_of_mem _ hy)), hopt]
    simp only [List.cons_append]

/-- The first header line passes through without an inserted blank and
sets the header flag. -/
theorem flGo_first_hdr (last : Option (List Char)) (h1 : List Char)
    (T : List (List Char)) (ht : trimL h1 = h1) (hh : isHdr h1 = true) :
    flGo false last (h1 :: T) = h1 :: flGo true (some h1) T := by
  simp only [flGo]
  rw [ht, hh, if_neg (isHdr_ne_slash hh)]
  simp

/-- A later header line, with a non-blank line last appended, receives
exactly one blank line in front of it. -/
theorem flGo_second_hdr (p h2 : List Char) (T : List (List Char))
    (ht : trimL h2 = h2) (hh : isHdr h2 = true) (hp : p ≠ []) :
    flGo true (some p) (h2 :: T) = [] :: h2 :: flGo true (some h2) T := by
  simp only [flGo]
  rw [ht, hh, if_neg (isHdr_ne_slash hh)]
  simp [hp]

/-- Lists of non-empty lines never have two adjacent blanks. -/
theorem chain'_of_ne_nil {ls : List (List Char)}
    (h : ∀ x ∈ ls, x ≠ []) :
    List.Chain' (fun a b => a ≠ [] ∨ b ≠ []) ls := by
  induction ls with
  | nil => simp
  | cons a rest ih =>
    rw [List.chain'_cons']
    exact ⟨fun y _ => Or.inl (h a (List.mem_cons_self a rest)),
      ih (fun x hx => h x (List.mem_cons_of_mem _ hx))⟩

/-- Claim C7: on a filtered sequence of trimmed non-blank lines (the
shape step 3 of format_song hands to format_lines) containing exactly
two header-marker lines separated by non-blank content, format_lines
inserts exactly one blank line, immediately before the second header,
and the output never has two adjacent blank lines. -/
theorem c7_header_spacing (P M R : List (List Char)) (h1 h2 : List Char)
    (hP : ∀ x ∈ P, trimL x = x ∧ x ≠ [] ∧ '\n' ∉ x ∧ isHdr x = false ∧
      x ≠ ['/', '/'])
    (hM : ∀ x ∈ M, trimL x = x ∧ x ≠ [] ∧ '\n' ∉ x ∧ isHdr x = false ∧
      x ≠ ['/', '/'])
    (hR : ∀ x ∈ R, trimL x = x ∧ x ≠ [] ∧ '\n' ∉ x ∧ isHdr x = false ∧
      x ≠ ['/', '/'])
    (hh1 : trimL h1 = h1 ∧ h1 ≠ [] ∧ '\n' ∉ h1 ∧ isHdr h1 = true)
    (hh2 : trimL h2 = h2 ∧ h2 ≠ [] ∧ '\n' ∉ h2 ∧ isHdr h2 = true)
    (hM0 : M ≠ []) :
    formatLinesL (joinLines (P ++ h1 :: (M ++ h2 :: R))) =
      joinLines (P ++ h1 :: (M ++ [] :: h2 :: R)) ∧
    List.Chain' (fun a b => a ≠ [] ∨ b ≠ [])
      (P ++ h1 :: (M ++ [] :: h2 :: R)) := by
  have hXmem : ∀ x ∈ P ++ h1 :: (M ++ h2 :: R),
      trimL x = x ∧ x ≠ [] ∧ '\n' ∉ x := by
    intro x hx
    rcases List.mem_append.mp hx with h | h
    · exact ⟨(hP x h).1, (hP x h).2.1, (hP x h).2.2.1⟩
    · rcases List.mem_cons.mp h with h | h
      · exact h ▸ ⟨hh1.1, hh1.2.1, hh1.2.2.1⟩
      · rcases List.mem_append.mp h with h | h
        · exact ⟨(hM x h).1, (hM x h).2.1, (hM x h).2.2.1⟩
        · rcases List.mem_cons.mp h with h | h
          · exact h ▸ ⟨hh2.1, hh2.2.1, hh2.2.2.1⟩
          · exact ⟨(hR x h).1, (hR x h).2.1, (hR x h).2.2.1⟩
  have hh1mem : h1 ∈ P ++ h1 :: (M ++ h2 :: R) :=
    List.mem_append.mpr (Or.inr (List.mem_cons_self _ _))
  have hXne : P ++ h1 :: (M ++ h2 :: R) ≠ [] := by
    intro hcon
    rw [hcon] at hh1mem
    simp at hh1mem
  obtain ⟨c1, hrest1, hc1⟩ : ∃ c rest, h1 = c :: rest := by
    cases hcase : h1 with
    | nil => exact absurd hcase hh1.2.1
    | cons a r => exact ⟨a, r, rfl⟩
  have hc1sp : pySpace c1 = false := by
    apply trimL_head (l := h1)
    rw [hh1.1, hc1]
    rfl
  have hguard : trimL (joinLines (P ++ h1 :: (M ++ h2 :: R))) ≠ [] := by
    intro hcon
    have hmem : c1 ∈ joinLines (P ++ h1 :: (M ++ h2 :: R)) :=
      mem_joinLines hh1mem (by rw [hc1]; exact List.mem_cons_self _ _)
    have := trimL_eq_nil_iff.mp hcon c1 hmem
    rw [hc1sp] at this
    exact Bool.false_ne_true this
  have hsplit : splitLines (joinLines (P ++ h1 :: (M ++ h2 :: R))) =
      P ++ h1 :: (M ++ h2 :: R) :=
    splitLines_joinLines hXne (fun x hx => (hXmem x hx).2.2)
  obtain ⟨m, hm⟩ : ∃ m, M.getLast? = some m := by
    cases hcase : M.getLast? with
    | none => exact absurd (List.getLast?_eq_none_iff.mp hcase) hM0
    | some z => exact ⟨z, rfl⟩
  have hmne : m ≠ [] := (hM m (List.mem_of_mem_getLast? hm)).2.1
  have hflgo : flGo false none (P ++ h1 :: (M ++ h2 :: R)) =
      P ++ h1 :: (M ++ [] :: h2 :: R) := by
    rw [flGo_inert false P (h1 :: (M ++ h2 :: R)) none
      (fun x hx => ⟨(hP x hx).1, (hP x hx).2.2.2.1, (hP x hx).2.2.2.2⟩)]
    rw [flGo_first_hdr _ h1 _ hh1.1 hh1.2.2.2]
    rw [flGo_inert true M (h2 :: R) (some h1)
      (fun x hx => ⟨(hM x hx).1, (hM x hx).2.2.2.1, (hM x hx).2.2.2.2⟩)]
    rw [hm]
    rw [show (Option.or (some m) (some h1)) = some m from rfl]
    rw [flGo_second_hdr m h2 R hh2.1 hh2.2.2.2 hmne]
    rw [show R = R ++ ([] : List (List Char)) by simp]
    rw [flGo_inert true R [] (some h2)
      (fun x hx => ⟨(hR x hx).1, (hR x hx).2.2.2.1, (hR x hx).2.2.2.2⟩)]
    simp [flGo]
  have hBlast : (P ++ h1 :: (M ++ [] :: h2 :: R)).getLast? =
      (h2 :: R).getLast? := by
    rw [show P ++ h1 :: (M ++ [] :: h2 :: R) =
      (P ++ h1 :: (M ++ [[]])) ++ (h2 :: R) by simp]
    exact List.getLast?_append_of_ne_nil _ (List.cons_ne_nil _ _)
  obtain ⟨z, hz⟩ : ∃ z, (h2 :: R).getLast? = some z := by
    cases hcase : (h2 :: R).getLast? with
    | none => exact absurd (List.getLast?_eq_none_iff.mp hcase) (List.cons_ne_nil _ _)
    | some z => exact ⟨z, rfl⟩
  have hzgood : trimL z = z ∧ z ≠ [] := by
    rcases List.mem_cons.mp (List.mem_of_mem_getLast? hz) with h | h
    · exact h ▸ ⟨hh2.1, hh2.2.1⟩
    · exact ⟨(hR z h).1, (hR z h).2.1⟩
  have htrimB : trimL (joinLines (P ++ h1 :: (M ++ [] :: h2 :: R))) =
      joinLines (P ++ h1 :: (M ++ [] :: h2 :: R)) := by
    apply trimL_eq_self
    · intro c hc
      cases P with
      | nil =>
        rw [List.nil_append, joinLines_head hh1.2.1] at hc
        apply trimL_head (l := h1)
        rw [hh1.1]
        exact hc
      | cons p ps =>
        have hpg := hP p (List.mem_cons_self p ps)
        rw [List.cons_append, joinLines_head hpg.2.1] at hc
        apply trimL_head (l := p)
        rw [hpg.1]
        exact hc
    · intro c hc
      rw [joinLines_getLast (hBlast.trans hz) hzgood.2] at hc
      apply trimL_getLast (l := z)
      rw [hzgood.1]
      exact hc
  constructor
  · unfold formatLinesL
    rw [if_neg hguard, hsplit, hflgo, htrimB]
  · rw [show P ++ h1 :: (M ++ [] :: h2 :: R) =
      (P ++ h1 :: M) ++ ([] :: h2 :: R) by simp]
    rw [List.chain'_append]
    refine ⟨?_, ?_, ?_⟩
    · apply chain'_of_ne_nil
      intro x hx
      rcases List.mem_append.mp hx with h | h
      · exact (hP x h).2.1
      · rcases List.mem_cons.mp h with h | h
        · exact h ▸ hh1.2.1
        · exact (hM x h).2.1
    · rw [List.chain'_cons']
      refine ⟨fun y hy => ?_, ?_⟩
      · simp at hy
        subst hy
        exact Or.inr hh2.2.1
      · apply chain'_of_ne_nil
        intro x hx
        rcases List.mem_cons.mp hx with h | h
        · exact h ▸ hh2.2.1
        · exact (hR x h).2.1
    · intro x hx y hy
      left
      have hx2 : (P ++ h1 :: M).getLast? = some x := hx
      rw [List.getLast?_append_of_ne_nil _ (List.cons_ne_nil _ _)] at hx2
      rcases List.mem_cons.mp (List.mem_of_mem_getLast? hx2) with h | h
      · exact h ▸ hh1.2.1
      · exact (hM x h).2.1

/-- Witness for claim C7 at a concrete two-header sequence. -/
theorem c7_witness :
    formatLinesL (joinLines ([] ++ "##(a".data ::
        (["x".data] ++ "##(b".data :: []))) =
      joinLines ([] ++ "##(a".data ::
        (["x".data] ++ [] :: "##(b".data :: [])) ∧
    List.Chain' (fun a b => a ≠ [] ∨ b ≠ [])
      ([] ++ "##(a".data :: (["x".data] ++ [] :: "##(b".data :: [])) :=
  c7_header_spacing [] ["x".data] [] "##(a".data "##(b".data
    (by decide) (by decide) (by decide) (by decide) (by decide) (by decide)

/-! ## Claim C5: idempotence on entity-free input

The development below establishes that every line format_song emits is
re-classified identically by a second pass, which together with the
round-trip properties of splitting and joining yields idempotence for
inputs without HTML entities (a concrete input with entities falsifies
the unrestricted claim).  -/

/-- Spaces are untouched by lower-casing. -/
theorem pySpace_pyLower (c : Char) : pySpace (pyLower c) = pySpace c := by
  unfold pySpace
  rw [Bool.eq_iff_iff]
  simp only [Bool.or_eq_true, decide_eq_true_eq, char_eq_iff]
  rw [toNat_pyLower]
  simp only [show (' ' : Char).toNat = 32 from rfl,
    show ('\t' : Char).toNat = 9 from rfl,
    show ('\n' : Char).toNat = 10 from rfl,
    show ('\x0b' : Char).toNat = 11 from rfl,
    show ('\x0c' : Char).toNat = 12 from rfl,
    show ('\x0d' : Char).toNat = 13 from rfl]
  unfold lowerNat
  split_ifs <;> omega

/-- Spaces are untouched by upper-casing. -/
theorem pySpace_pyUpper (c : Char) : pySpace (pyUpper c) = pySpace c := by
  unfold pySpace
  rw [Bool.eq_iff_iff]
  simp only [Bool.or_eq_true, decide_eq_true_eq, char_eq_iff]
  rw [toNat_pyUpper]
  simp only [show (' ' : Char).toNat = 32 from rfl,
    show ('\t' : Char).toNat = 9 from rfl,
    show ('\n' : Char).toNat = 10 from rfl,
    show ('\x0b' : Char).toNat = 11 from rfl,
    show ('\x0c' : Char).toNat = 12 from rfl,
    show ('\x0d' : Char).toNat = 13 from rfl]
  unfold upperNat
  split_ifs <;> omega

/-- A startswith test is unaffected by appending one character that
does not occur in the pattern. -/
theorem lstarts_snoc {e : Char} :
    ∀ (p w : List Char), e ∉ p → lstarts p (w ++ [e]) = lstarts p w := by
  intro p
  induction p with
  | nil => intro w _; rfl
  | cons k ks ih =>
    intro w he
    cases w with
    | nil =>
      have hke : k ≠ e := fun hcon => he (hcon ▸ List.mem_cons_self k ks)
      simp [lstarts, hke]
    | cons a ws =>
      show lstarts (k :: ks) (a :: (ws ++ [e])) = lstarts (k :: ks) (a :: ws)
      unfold lstarts
      rw [ih ws (fun hcon => he (List.mem_cons_of_mem _ hcon))]

/-- A startswith test extends to a longer list. -/
theorem lstarts_append {p w : List Char} (v : List Char)
    (h : lstarts p w = true) : lstarts p (w ++ v) = true := by
  induction p generalizing w with
  | nil => rfl
  | cons k ks ih =>
    cases w with
    | nil => simp [lstarts] at h
    | cons a ws =>
      rw [show lstarts (k :: ks) (a :: ws) =
        (decide (k = a) && lstarts ks ws) from rfl] at h
      rcases Bool.and_eq_true _ _ |>.mp h with ⟨h1, h2⟩
      rw [List.cons_append]
      rw [show lstarts (k :: ks) (a :: (ws ++ v)) =
        (decide (k = a) && lstarts ks (ws ++ v)) from rfl]
      rw [h1, ih h2]
      rfl

/-- Every list starts with itself, whatever follows. -/
theorem lstarts_self_append (p v : List Char) : lstarts p (p ++ v) = true := by
  apply lstarts_append
  induction p with
  | nil => rfl
  | cons k ks ih => simp [lstarts, ih]

/-- A startswith pattern is recovered by take. -/
theorem lstarts_take {p w : List Char} (h : lstarts p w = true) :
    w.take p.length = p := by
  induction p generalizing w with
  | nil => rfl
  | cons k ks ih =>
    cases w with
    | nil => simp [lstarts] at h
    | cons a ws =>
      unfold lstarts at h
      rcases Bool.and_eq_true _ _ |>.mp h with ⟨h1, h2⟩
      have h1e : k = a := by simpa using h1
      simp [List.take, ih h2, h1e]

/-- A startswith pattern is no longer than the list. -/
theorem lstarts_length {p w : List Char} (h : lstarts p w = true) :
    p.length ≤ w.length := by
  induction p generalizing w with
  | nil => simp
  | cons k ks ih =>
    cases w with
    | nil => simp [lstarts] at h
    | cons a ws =>
      unfold lstarts at h
      rcases Bool.and_eq_true _ _ |>.mp h with ⟨_, h2⟩
      simpa using ih h2

/-- Every character of a matched pattern occurs in the list. -/
theorem lstarts_chars :
    ∀ {s w : List Char}, lstarts s w = true → ∀ e ∈ s, e ∈ w := by
  intro s
  induction s with
  | nil => intro w _ e he; simp at he
  | cons k ks ih =>
    intro w h e he
    cases w with
    | nil => simp [lstarts] at h
    | cons c cs =>
      rw [show lstarts (k :: ks) (c :: cs) =
        (decide (k = c) && lstarts ks cs) from rfl] at h
      rcases Bool.and_eq_true _ _ |>.mp h with ⟨hk, hrest⟩
      have hk2 : k = c := by simpa using hk
      rcases List.mem_cons.mp he with h2 | h2
      · exact List.mem_cons.mpr (Or.inl (h2.trans hk2))
      · exact List.mem_cons_of_mem _ (ih hrest e h2)

/-- Every character of a contained substring occurs in the list. -/
theorem containsSeq_chars {s : List Char} :
    ∀ {w : List Char}, containsSeq s w = true → ∀ e ∈ s, e ∈ w := by
  intro w
  induction w with
  | nil =>
    intro h e he
    unfold containsSeq at h
    rcases List.isEmpty_iff.mp h with rfl
    simp at he
  | cons c cs ih =>
    intro h e he
    unfold containsSeq at h
    rcases Bool.or_eq_true _ _ |>.mp h with h1 | h1
    · exact lstarts_chars h1 e he
    · exact List.mem_cons_of_mem _ (ih h1 e he)

/-- A substring test is unaffected by appending one character that
does not occur in the substring. -/
theorem containsSeq_snoc {s : List Char} {e : Char} (he : e ∉ s) :
    ∀ {w : List Char}, containsSeq s (w ++ [e]) = true →
      containsSeq s w = true := by
  intro w
  induction w with
  | nil =>
    intro h
    unfold containsSeq at h ⊢
    simp only [List.nil_append] at h
    rcases Bool.or_eq_true _ _ |>.mp h with h1 | h1
    · cases s with
      | nil => rfl
      | cons k ks =>
        rw [show lstarts (k :: ks) [e] = (decide (k = e) && lstarts ks []) from rfl] at h1
        rcases Bool.and_eq_true _ _ |>.mp h1 with ⟨hk, hrest⟩
        have : k = e := by simpa using hk
        exact absurd (this ▸ List.mem_cons_self k ks) he
    · unfold containsSeq at h1
      exact h1
  | cons c cs ih =>
    intro h
    rw [List.cons_append] at h
    unfold containsSeq at h ⊢
    rcases Bool.or_eq_true _ _ |>.mp h with h1 | h1
    · rw [← List.cons_append] at h1
      rw [lstarts_snoc s (c :: cs) he] at h1
      rw [h1]
      rfl
    · rw [ih h1]
      simp

/-- The slash-bass grammar contains no colon. -/
theorem slash_no_colon : ∀ (m : List Char),
    (slashSeq m = true → ':' ∉ m) ∧
    (slashRoot m = true → ':' ∉ m) ∧
    (slashAcc m = true → ':' ∉ m) := by
  intro m
  induction m with
  | nil =>
    refine ⟨fun _ => by simp, fun h => by simp [slashRoot] at h,
      fun _ => by simp⟩
  | cons c rest ih =>
    refine ⟨?_, ?_, ?_⟩
    · intro h hmem
      unfold slashSeq at h
      rcases Bool.and_eq_true _ _ |>.mp h with ⟨h1, h2⟩
      have hc : c = '/' := by simpa using h1
      rcases List.mem_cons.mp hmem with h3 | h3
      · rw [← h3] at hc
        exact absurd hc (by decide)
      · exact ih.2.1 h2 h3
    · intro h hmem
      unfold slashRoot at h
      rcases Bool.and_eq_true _ _ |>.mp h with ⟨h1, h2⟩
      rcases List.mem_cons.mp hmem with h3 | h3
      · rw [← h3] at h1
        exact absurd h1 (by decide)
      · exact ih.2.2 h2 h3
    · intro h hmem
      unfold slashAcc at h
      by_cases hacc : isAccidentalChar c = true
      · rw [if_pos hacc] at h
        rcases List.mem_cons.mp hmem with h3 | h3
        · rw [← h3] at hacc
          exact absurd hacc (by decide)
        · exact ih.2.2 h h3
      · rw [if_neg hacc] at h
        rcases Bool.and_eq_true _ _ |>.mp h with ⟨h1, h2⟩
        rcases List.mem_cons.mp hmem with h3 | h3
        · have hc : c = '/' := by simpa using h1
          rw [← h3] at hc
          exact absurd hc (by decide)
        · exact ih.2.1 h2 h3

/-- The suffix alternation contains no colon, at any fuel. -/
theorem sufF_no_colon : ∀ (fuel : ℕ) (l : List Char),
    sufF fuel l = true → ':' ∉ l := by
  intro fuel
  induction fuel with
  | zero => intro l h; simp [sufF] at h
  | succ n ih =>
    intro l h hmem
    unfold sufF at h
    rcases Bool.or_eq_true _ _ |>.mp h with h1 | h1
    · exact (slash_no_colon l).1 h1 hmem
    · rcases List.any_eq_true.mp h1 with ⟨a, ha, hpa⟩
      rcases Bool.and_eq_true _ _ |>.mp hpa with ⟨hci, hrec⟩
      rw [← List.take_append_drop a.length l] at hmem
      rcases List.mem_append.mp hmem with h2 | h2
      · have : (':' : Char) ∈ (l.map pyLower).take a.length := by
          rw [← List.map_take]
          exact List.mem_map.mpr ⟨':', h2, by decide⟩
        rw [lstarts_take hci] at this
        exact absurd ha (by intro hmem2; exact absurd this (by
          revert hmem2
          have : ∀ x ∈ altStrings, (':' : Char) ∉ x := by decide
          intro hmem2
          exact this a hmem2))
      · exact ih (l.drop a.length) hrec h2

/-- A token containing a colon never matches the chord regex. -/
theorem chordRegexMatch_no_colon {w : List Char}
    (h : chordRegexMatch w = true) : ':' ∉ w := by
  intro hmem
  cases w with
  | nil => simp at hmem
  | cons c rest =>
    unfold chordRegexMatch at h
    rcases Bool.and_eq_true _ _ |>.mp h with ⟨hroot, hrest⟩
    rcases List.mem_cons.mp hmem with h3 | h3
    · rw [← h3] at hroot
      exact absurd hroot (by decide)
    · rcases Bool.or_eq_true _ _ |>.mp hrest with h4 | h4
      · exact sufF_no_colon _ rest h4 h3
      · cases rest with
        | nil => simp at h3
        | cons d rest2 =>
          rcases Bool.and_eq_true _ _ |>.mp h4 with ⟨hacc, hsuf⟩
          rcases List.mem_cons.mp h3 with h5 | h5
          · rw [← h5] at hacc
            exact absurd hacc (by decide)
          · exact sufF_no_colon _ rest2 hsuf h5

/-- Whether the list is empty or ends in whitespace; appending one
non-whitespace character then extends the last token, otherwise it
opens a new one. -/
def lastSpace (m : List Char) : Bool :=
  match m.getLast? with
  | none => true
  | some c => pySpace c

/-- A token list headed by a non-space character is non-empty. -/
theorem splitWs_ne_nil {d : Char} (hd : pySpace d = false) (r : List Char) :
    splitWs (d :: r) ≠ [] := by
  cases r with
  | nil => simp [splitWs, hd]
  | cons e r2 =>
    unfold splitWs
    rw [if_neg (by simp [hd])]
    by_cases he : pySpace e = true
    · rw [if_pos he]
      simp
    · rw [if_neg he]
      cases splitWs (e :: r2) <;> simp


/-- Appending one non-space character to a list: if the list ends in
whitespace (or is empty) the character becomes a new final token,
otherwise it extends the final token. -/
theorem splitWs_snoc {x : Char} (hx : pySpace x = false) :
    ∀ (m : List Char),
      (lastSpace m = true → splitWs (m ++ [x]) = splitWs m ++ [[x]]) ∧
      (lastSpace m = false → ∃ K T, splitWs m = K ++ [T] ∧
        splitWs (m ++ [x]) = K ++ [T ++ [x]]) := by
  intro m
  induction m using splitWs.induct with
  | case1 =>
    constructor
    · intro _
      simp [splitWs, hx]
    · intro h
      simp [lastSpace] at h
  | case2 c hc =>
    constructor
    · intro _
      show splitWs (c :: [x]) = splitWs [c] ++ [[x]]
      unfold splitWs
      rw [if_pos hc, if_pos hc]
      simp [splitWs, hx]
    · intro h
      simp [lastSpace, hc] at h
  | case3 c hc =>
    have hc2 : pySpace c = false := by
      cases hcc : pySpace c
      · rfl
      · exact absurd hcc hc
    constructor
    · intro h
      simp [lastSpace, hc2] at h
    · intro _
      refine ⟨[], [c], by simp [splitWs, hc2], ?_⟩
      show splitWs (c :: [x]) = [] ++ [[c] ++ [x]]
      unfold splitWs
      rw [if_neg (by simp [hc2]), if_neg (by simp [hx])]
      simp [splitWs, hx]
  | case4 c d rest hc ih =>
    simp only [List.cons_append] at ih
    have hlast : lastSpace (c :: d :: rest) = lastSpace (d :: rest) := by
      unfold lastSpace
      rw [List.getLast?_cons_cons]
    have hm1 : splitWs (c :: d :: rest) = splitWs (d :: rest) := by
      conv_lhs => unfold splitWs
      try dsimp only
      rw [if_pos hc]
    have hm2 : splitWs (c :: d :: (rest ++ [x])) =
        splitWs (d :: (rest ++ [x])) := by
      conv_lhs => unfold splitWs
      try dsimp only
      rw [if_pos hc]
    constructor
    · intro h
      rw [hlast] at h
      simp only [List.cons_append]
      rw [hm2, hm1]
      exact ih.1 h
    · intro h
      rw [hlast] at h
      obtain ⟨K, T, h1, h2⟩ := ih.2 h
      refine ⟨K, T, by rw [hm1]; exact h1, ?_⟩
      simp only [List.cons_append]
      rw [hm2]
      exact h2
  | case5 c d rest hc hd ih =>
    simp only [List.cons_append] at ih
    have hlast : lastSpace (c :: d :: rest) = lastSpace (d :: rest) := by
      unfold lastSpace
      rw [List.getLast?_cons_cons]
    have hm1 : splitWs (c :: d :: rest) = [c] :: splitWs (d :: rest) := by
      conv_lhs => unfold splitWs
      try dsimp only
      rw [if_neg hc, if_pos hd]
    have hm2 : splitWs (c :: d :: (rest ++ [x])) =
        [c] :: splitWs (d :: (rest ++ [x])) := by
      conv_lhs => unfold splitWs
      try dsimp only
      rw [if_neg hc, if_pos hd]
    constructor
    · intro h
      rw [hlast] at h
      simp only [List.cons_append]
      rw [hm2, hm1, ih.1 h]
      simp
    · intro h
      rw [hlast] at h
      obtain ⟨K, T, h1, h2⟩ := ih.2 h
      refine ⟨[c] :: K, T, by rw [hm1, h1]; simp, ?_⟩
      simp only [List.cons_append]
      rw [hm2, h2]
  | case6 c d rest hc hd hnil ih =>
    have hd2 : pySpace d = false := by
      cases hdd : pySpace d
      · rfl
      · exact absurd hdd hd
    exact absurd hnil (splitWs_ne_nil hd2 rest)
  | case7 c d rest hc hd t ts hm ih =>
    simp only [List.cons_append] at ih
    have hlast : lastSpace (c :: d :: rest) = lastSpace (d :: rest) := by
      unfold lastSpace
      rw [List.getLast?_cons_cons]
    have hm1 : splitWs (c :: d :: rest) = (c :: t) :: ts := by
      conv_lhs => unfold splitWs
      try dsimp only
      rw [if_neg hc, if_neg hd, hm]
    constructor
    · intro h
      rw [hlast] at h
      have hx1 : splitWs (c :: d :: (rest ++ [x])) =
          (c :: t) :: (ts ++ [[x]]) := by
        conv_lhs => unfold splitWs
        try dsimp only
        rw [if_neg hc, if_neg hd, ih.1 h, hm]
        rfl
      simp only [List.cons_append]
      rw [hx1, hm1]
      simp
    · intro h
      rw [hlast] at h
      obtain ⟨K, T, h1, h2⟩ := ih.2 h
      rw [hm] at h1
      cases K with
      | nil =>
        simp at h1
        obtain ⟨ht, hts⟩ := h1
        subst ht
        subst hts
        refine ⟨[], c :: t, by rw [hm1]; simp, ?_⟩
        have hx1 : splitWs (c :: d :: (rest ++ [x])) =
            (c :: (t ++ [x])) :: [] := by
          conv_lhs => unfold splitWs
          try dsimp only
          rw [if_neg hc, if_neg hd, h2]
          rfl
        simp only [List.cons_append]
        rw [hx1]
        simp
      | cons k ks =>
        rw [List.cons_append] at h1
        have hk : t = k := (List.cons.injEq _ _ _ _ ▸ h1).1
        have hts : ts = ks ++ [T] := (List.cons.injEq _ _ _ _ ▸ h1).2
        subst hk
        refine ⟨(c :: t) :: ks, T, by rw [hm1, hts]; simp, ?_⟩
        have hx1 : splitWs (c :: d :: (rest ++ [x])) =
            (c :: t) :: (ks ++ [T ++ [x]]) := by
          conv_lhs => unfold splitWs
          try dsimp only
          rw [if_neg hc, if_neg hd, h2]
          rfl
        simp only [List.cons_append]
        rw [hx1]

/-! ## Claim C5: idempotence of format_song

The rewriting step of format_song only ever emits lines of three
shapes: a plain trimmed line that passed every test, a line rewritten
to end in a colon, or a capitalized numbered-section header.  The
lemmas below show every emitted line is a fixed point of the rewriting
step, so running the whole pipeline a second time reproduces its own
output, as long as no ampersand is present (entity stripping is the
one non-idempotent stage, refuted separately). -/

/-- Upper-casing after lower-casing is plain upper-casing (on the
code-point level). -/
theorem upperNat_lowerNat (n : ℕ) : upperNat (lowerNat n) = upperNat n := by
  unfold upperNat lowerNat
  split_ifs <;> omega

/-- pyUpper after pyLower is plain pyUpper. -/
theorem pyUpper_pyLower (c : Char) : pyUpper (pyLower c) = pyUpper c := by
  apply char_toNat_inj
  rw [toNat_pyUpper, toNat_pyUpper, toNat_pyLower, upperNat_lowerNat]

/-- A one-character substring test follows from membership. -/
theorem containsSeq_of_mem {e : Char} :
    ∀ {w : List Char}, e ∈ w → containsSeq [e] w = true := by
  intro w
  induction w with
  | nil => intro h; simp at h
  | cons c cs ih =>
    intro h
    unfold containsSeq
    rcases List.mem_cons.mp h with h1 | h1
    · have hst : lstarts [e] (c :: cs) = true := by
        subst h1
        simp [lstarts]
      rw [hst]
      rfl
    · rw [ih h1]
      simp

/-- Capitalization only looks at the lower-cased form of the word. -/
theorem pyCapitalize_map_lower (w : List Char) :
    pyCapitalize (w.map pyLower) = pyCapitalize w := by
  cases w with
  | nil => rfl
  | cons w0 wrest =>
    show pyUpper (pyLower w0) :: (wrest.map pyLower).map pyLower =
      pyUpper w0 :: wrest.map pyLower
    rw [pyUpper_pyLower, List.map_map]
    exact congrArg _ (List.map_congr_left (fun a _ => pyLower_idem a))

/-- Characters of a capitalized word are case images of its
characters. -/
theorem mem_pyCapitalize {c : Char} {w : List Char}
    (h : c ∈ pyCapitalize w) :
    ∃ d ∈ w, c = pyUpper d ∨ c = pyLower d := by
  cases w with
  | nil => simp [pyCapitalize] at h
  | cons w0 wrest =>
    rcases List.mem_cons.mp h with h1 | h1
    · exact ⟨w0, List.mem_cons_self _ _, Or.inl h1⟩
    · rcases List.mem_map.mp h1 with ⟨d, hd, hde⟩
      exact ⟨d, List.mem_cons_of_mem _ hd, Or.inr hde.symm⟩

/-- Digits are not whitespace. -/
theorem pySpace_of_digit {d : Char} (h : isAsciiDigit d = true) :
    pySpace d = false := by
  rcases digit_cases h with h1|h1|h1|h1|h1|h1|h1|h1|h1|h1 <;> subst h1 <;> decide

/-- Membership from the head. -/
theorem mem_of_head?_eq {c : Char} {l : List Char} (h : l.head? = some c) :
    c ∈ l := by
  cases l with
  | nil => simp at h
  | cons a as =>
    have : a = c := by simpa using h
    exact this ▸ List.mem_cons_self a as

/-- Dropping from a one-element list whose element fails the test. -/
theorem dropWhile_single {p : Char → Bool} {e : Char} (h : p e = false) :
    [e].dropWhile p = [e] :=
  dropWhile_eq_self_of_head (fun c hc => by
    have : e = c := by simpa using hc
    rwa [← this])

/-- A list ending in a colon is never the double slash. -/
theorem ne_slashes_of_colon (v : List Char) : v ++ [':'] ≠ ['/', '/'] := by
  intro hcon
  have h1 := getLast?_append_colon v
  rw [hcon] at h1
  exact absurd h1 (by decide)

/-- Appending a non-space character to a list with a non-space head
keeps it trimmed. -/
theorem trimL_snoc {m : List Char} {e : Char} (he : pySpace e = false)
    (hh : ∀ c, m.head? = some c → pySpace c = false) :
    trimL (m ++ [e]) = m ++ [e] := by
  apply trimL_eq_self
  · intro c hc
    cases m with
    | nil =>
      have : e = c := by simpa using hc
      rwa [← this]
    | cons a as =>
      rw [List.head?_append_of_ne_nil _ (List.cons_ne_nil a as)] at hc
      exact hh c hc
  · intro c hc
    rw [List.getLast?_append_of_ne_nil _ (List.cons_ne_nil e [])] at hc
    have : e = c := by simpa using hc
    rwa [← this]

/-- find? only depends on the values of the predicate on the list. -/
theorem find?_congr_of_eq {f g : List Char → Bool} :
    ∀ (L : List (List Char)), (∀ x ∈ L, f x = g x) →
      L.find? f = L.find? g := by
  intro L
  induction L with
  | nil => intro _; rfl
  | cons a as ih =>
    intro h
    rw [List.find?_cons, List.find?_cons, h a (List.mem_cons_self a as)]
    cases g a
    · exact ih (fun x hx => h x (List.mem_cons_of_mem _ hx))
    · rfl

/-- No numbered-section keyword matches a remainder shorter than two
characters. -/
theorem kwMatch_short {r : List Char} (h : r.length ≤ 1) :
    kwMatch r = none := by
  unfold kwMatch
  rw [List.find?_eq_none]
  intro kw hkw hcon
  have hlen := lstarts_length hcon
  rw [List.length_map] at hlen
  have h2 : 2 ≤ kw.length := by
    have hall : ∀ x ∈ numKinds, 2 ≤ x.length := by decide
    exact hall kw hkw
  omega

/-- The numbered-section matcher, with its local definitions
flattened. -/
theorem numParse_eq (t : List Char) :
    numParse t =
      if t.takeWhile isAsciiDigit = [] then none
      else
        match kwMatch ((t.dropWhile isAsciiDigit).dropWhile pySpace) with
        | some kw => some (t.takeWhile isAsciiDigit,
            pyCapitalize
              (((t.dropWhile isAsciiDigit).dropWhile pySpace).take kw.length))
        | none => none := rfl

/-- Appending one character that is not a digit, not whitespace, and
(lower-cased) foreign to every keyword, does not change whether the
numbered-section regex fails. -/
theorem numParse_snoc {e : Char} (hd : isAsciiDigit e = false)
    (hs : pySpace e = false)
    (hk : ∀ kw ∈ numKinds, pyLower e ∉ kw)
    (m : List Char) :
    (numParse (m ++ [e]) = none ↔ numParse m = none) := by
  rw [numParse_eq, numParse_eq]
  by_cases hall : ∀ x ∈ m, isAsciiDigit x = true
  · have hmtake : m.takeWhile isAsciiDigit = m :=
      List.takeWhile_eq_self_iff.mpr hall
    have hlen : (m.takeWhile isAsciiDigit).length = m.length := by rw [hmtake]
    have h1 : (m ++ [e]).takeWhile isAsciiDigit =
        m ++ [e].takeWhile isAsciiDigit := by
      rw [List.takeWhile_append, if_pos hlen]
    have h2 : [e].takeWhile isAsciiDigit = [] :=
      List.takeWhile_cons_of_neg (by simp [hd])
    rw [h1, h2, List.append_nil, hmtake]
    cases m with
    | nil => simp
    | cons a as =>
      rw [if_neg (List.cons_ne_nil a as), if_neg (List.cons_ne_nil a as)]
      have hd1 : (a :: as).dropWhile isAsciiDigit = [] :=
        List.dropWhile_eq_nil_iff.mpr hall
      have hd2 : ((a :: as) ++ [e]).dropWhile isAsciiDigit = [e] := by
        rw [List.dropWhile_append, if_pos (by simp [hd1])]
        exact dropWhile_single hd
      rw [hd1, hd2, dropWhile_single hs]
      rw [show (([] : List Char).dropWhile pySpace) = [] from rfl]
      rw [kwMatch_short (by simp), kwMatch_short (by simp)]
  · have hlen : ¬ (m.takeWhile isAsciiDigit).length = m.length := by
      intro hcon
      have heq := (List.takeWhile_sublist (l := m) isAsciiDigit).eq_of_length hcon
      exact hall (List.takeWhile_eq_self_iff.mp heq)
    have h1 : (m ++ [e]).takeWhile isAsciiDigit = m.takeWhile isAsciiDigit := by
      rw [List.takeWhile_append, if_neg hlen]
    rw [h1]
    by_cases hnum : m.takeWhile isAsciiDigit = []
    · rw [if_pos hnum, if_pos hnum]
    · rw [if_neg hnum, if_neg hnum]
      have hdne : m.dropWhile isAsciiDigit ≠ [] := by
        intro hcon
        apply hall
        intro x hx
        exact List.dropWhile_eq_nil_iff.mp hcon x hx
      have h2 : (m ++ [e]).dropWhile isAsciiDigit =
          m.dropWhile isAsciiDigit ++ [e] := by
        rw [List.dropWhile_append, if_neg (by simp [List.isEmpty_iff, hdne])]
      rw [h2]
      by_cases hsp : ∀ x ∈ m.dropWhile isAsciiDigit, pySpace x = true
      · have hs1 : (m.dropWhile isAsciiDigit).dropWhile pySpace = [] :=
          List.dropWhile_eq_nil_iff.mpr hsp
        have hs2 : (m.dropWhile isAsciiDigit ++ [e]).dropWhile pySpace = [e] := by
          rw [List.dropWhile_append, if_pos (by simp [hs1])]
          exact dropWhile_single hs
        rw [hs1, hs2, kwMatch_short (by simp), kwMatch_short (by simp)]
      · have hrne : (m.dropWhile isAsciiDigit).dropWhile pySpace ≠ [] := by
          intro hcon
          apply hsp
          intro x hx
          exact List.dropWhile_eq_nil_iff.mp hcon x hx
        have hs2 : (m.dropWhile isAsciiDigit ++ [e]).dropWhile pySpace =
            (m.dropWhile isAsciiDigit).dropWhile pySpace ++ [e] := by
          rw [List.dropWhile_append, if_neg (by simp [List.isEmpty_iff, hrne])]
        rw [hs2]
        have hkw : kwMatch ((m.dropWhile isAsciiDigit).dropWhile pySpace ++ [e]) =
            kwMatch ((m.dropWhile isAsciiDigit).dropWhile pySpace) := by
          unfold kwMatch
          apply find?_congr_of_eq
          intro kw hkw2
          unfold ciStarts
          rw [List.map_append]
          rw [show List.map pyLower [e] = [pyLower e] from rfl]
          exact lstarts_snoc kw _ (hk kw hkw2)
        rw [hkw]
        cases kwMatch ((m.dropWhile isAsciiDigit).dropWhile pySpace) with
        | none => simp
        | some kw => simp

/-- A leading whitespace character is discarded by tokenization. -/
theorem splitWs_cons_space {d : Char} (hd : pySpace d = true) (B : List Char) :
    splitWs (d :: B) = splitWs B := by
  cases B with
  | nil => simp [splitWs, hd]
  | cons b B2 =>
    conv_lhs => unfold splitWs
    try dsimp only
    rw [if_pos hd]

/-- A non-empty all-non-space list is a single token. -/
theorem splitWs_all_nonspace {B : List Char} (hB : B ≠ [])
    (h : ∀ x ∈ B, pySpace x = false) : splitWs B = [B] := by
  induction B with
  | nil => exact absurd rfl hB
  | cons c B2 ih =>
    have hc := h c (List.mem_cons_self _ _)
    cases B2 with
    | nil => simp [splitWs, hc]
    | cons d B3 =>
      have hdd := h d (List.mem_cons_of_mem _ (List.mem_cons_self _ _))
      have hrec : splitWs (d :: B3) = [d :: B3] :=
        ih (List.cons_ne_nil _ _) (fun x hx => h x (List.mem_cons_of_mem _ hx))
      conv_lhs => unfold splitWs
      try dsimp only
      rw [if_neg (by simp [hc]), if_neg (by simp [hdd]), hrec]

/-- A leading all-non-space token before a whitespace separator splits
off. -/
theorem splitWs_sep {A : List Char} (hA : A ≠ [])
    (hAns : ∀ x ∈ A, pySpace x = false) {d : Char} (hd : pySpace d = true)
    (B : List Char) :
    splitWs (A ++ d :: B) = A :: splitWs B := by
  induction A with
  | nil => exact absurd rfl hA
  | cons a A2 ih =>
    have ha := hAns a (List.mem_cons_self _ _)
    cases A2 with
    | nil =>
      show splitWs (a :: d :: B) = [a] :: splitWs B
      conv_lhs => unfold splitWs
      try dsimp only
      rw [if_neg (by simp [ha]), if_pos hd, splitWs_cons_space hd]
    | cons a2 A3 =>
      have ha2 := hAns a2 (List.mem_cons_of_mem _ (List.mem_cons_self _ _))
      have hrec : splitWs (a2 :: (A3 ++ d :: B)) = (a2 :: A3) :: splitWs B := by
        have h0 := ih (List.cons_ne_nil _ _)
          (fun x hx => hAns x (List.mem_cons_of_mem _ hx))
        simpa [List.cons_append] using h0
      show splitWs (a :: a2 :: (A3 ++ d :: B)) = (a :: a2 :: A3) :: splitWs B
      conv_lhs => unfold splitWs
      try dsimp only
      rw [if_neg (by simp [ha]), if_neg (by simp [ha2]), hrec]

/-- The token list of one word, one space, one word. -/
theorem splitWs_two_tokens {A B : List Char} (hA : A ≠ []) (hB : B ≠ [])
    (hAns : ∀ x ∈ A, pySpace x = false) (hBns : ∀ x ∈ B, pySpace x = false) :
    splitWs (A ++ ' ' :: B) = [A, B] := by
  rw [splitWs_sep hA hAns (by decide) B, splitWs_all_nonspace hB hBns]

/-- The chord-line test on an already trimmed non-blank line is the
all-tokens test. -/
theorem isChordLine_eq_all {t : List Char} (htr : trimL t = t) (hne : t ≠ []) :
    isChordLine t = (splitWs t).all chordTok := by
  unfold isChordLine
  rw [htr, if_neg hne]

/-- A failing chord token still fails with a colon appended. -/
theorem chordTok_snoc_colon {T : List Char} (h : chordTok T = false) :
    chordTok (T ++ [':']) = false := by
  unfold chordTok at h ⊢
  rw [Bool.or_eq_false_iff] at h ⊢
  obtain ⟨h1, h2⟩ := h
  rw [List.any_eq_false] at h2
  constructor
  · cases hr : chordRegexMatch (T ++ [':'])
    · rfl
    · exact absurd (List.mem_append.mpr (Or.inr (List.mem_cons_self _ _)))
        (chordRegexMatch_no_colon hr)
  · rw [List.any_eq_false]
    intro s hs hcon
    have hns : (':' : Char) ∉ s := by
      have hall : ∀ x ∈ chordSyms, (':' : Char) ∉ x := by decide
      exact hall s hs
    exact h2 s hs (containsSeq_snoc hns hcon)

/-- The last token of a trimmed non-chord line: appending a colon to
the line keeps it a non-chord line. -/
theorem isChordLine_snoc_colon {t : List Char} (htr : trimL t = t)
    (hne : t ≠ []) (h : isChordLine t = false) :
    isChordLine (t ++ [':']) = false := by
  have hhead : ∀ c, t.head? = some c → pySpace c = false := by
    intro c hc
    exact trimL_head (l := t) (by rw [htr]; exact hc)
  have hlastc : ∀ c, t.getLast? = some c → pySpace c = false := by
    intro c hc
    exact trimL_getLast (l := t) (by rw [htr]; exact hc)
  have htr2 : trimL (t ++ [':']) = t ++ [':'] :=
    trimL_snoc (by decide) hhead
  have hlsf : lastSpace t = false := by
    unfold lastSpace
    cases hgl : t.getLast? with
    | none => exact absurd (List.getLast?_eq_none_iff.mp hgl) hne
    | some e =>
      dsimp only
      exact hlastc e hgl
  obtain ⟨K, T0, hK1, hK2⟩ := (splitWs_snoc (x := ':') (by decide) t).2 hlsf
  rw [isChordLine_eq_all htr hne, hK1, List.all_eq_false] at h
  obtain ⟨w, hw, hwf⟩ := h
  rw [Bool.not_eq_true] at hwf
  rw [isChordLine_eq_all htr2 (by simp), hK2, List.all_eq_false]
  rcases List.mem_append.mp hw with hwK | hwT
  · exact ⟨w, List.mem_append_left _ hwK, by simp [hwf]⟩
  · have hwT2 : w = T0 := by simpa using hwT
    subst hwT2
    exact ⟨w ++ [':'], List.mem_append_right _ (List.mem_cons_self _ _),
      by simp [chordTok_snoc_colon hwf]⟩

/-- Replacing a trailing bar by a colon keeps a non-chord line a
non-chord line. -/
theorem isChordLine_bar_colon {m : List Char}
    (htr : trimL (m ++ ['|']) = m ++ ['|'])
    (h : isChordLine (m ++ ['|']) = false) :
    isChordLine (m ++ [':']) = false := by
  have hmne : m ≠ [] := by
    intro hcon
    subst hcon
    rw [List.nil_append] at h
    exact absurd h (by decide)
  have hne1 : m ++ ['|'] ≠ [] := by simp
  have hhead : ∀ c, m.head? = some c → pySpace c = false := by
    intro c hc
    have hc2 : (m ++ ['|']).head? = some c := by
      rw [List.head?_append_of_ne_nil _ hmne]
      exact hc
    exact trimL_head (l := m ++ ['|']) (by rw [htr]; exact hc2)
  have htr2 : trimL (m ++ [':']) = m ++ [':'] :=
    trimL_snoc (by decide) hhead
  cases hls : lastSpace m with
  | true =>
    have e1 := (splitWs_snoc (x := '|') (by decide) m).1 hls
    have e2 := (splitWs_snoc (x := ':') (by decide) m).1 hls
    rw [isChordLine_eq_all htr hne1, e1, List.all_eq_false] at h
    obtain ⟨w, hw, hwf⟩ := h
    rw [Bool.not_eq_true] at hwf
    rw [isChordLine_eq_all htr2 (by simp), e2, List.all_eq_false]
    rcases List.mem_append.mp hw with hwK | hwT
    · exact ⟨w, List.mem_append_left _ hwK, by simp [hwf]⟩
    · have hwT2 : w = ['|'] := by simpa using hwT
      rw [hwT2] at hwf
      exact absurd hwf (by decide)
  | false =>
    obtain ⟨K, T0, hK1, hK2⟩ := (splitWs_snoc (x := '|') (by decide) m).2 hls
    obtain ⟨K2, T2, hK1b, hK2b⟩ := (splitWs_snoc (x := ':') (by decide) m).2 hls
    obtain ⟨hKeq, hTeq⟩ := List.append_inj' (hK1.symm.trans hK1b) rfl
    have hTeq2 : T0 = T2 := by simpa using hTeq
    subst hKeq
    subst hTeq2
    rw [isChordLine_eq_all htr hne1, hK2, List.all_eq_false] at h
    obtain ⟨w, hw, hwf⟩ := h
    rw [Bool.not_eq_true] at hwf
    rw [isChordLine_eq_all htr2 (by simp), hK2b, List.all_eq_false]
    rcases List.mem_append.mp hw with hwK | hwT
    · exact ⟨w, List.mem_append_left _ hwK, by simp [hwf]⟩
    · have hwT2 : w = T0 ++ ['|'] := by simpa using hwT
      have htrue : chordTok (T0 ++ ['|']) = true := by
        have hcs : containsSeq ['|'] (T0 ++ ['|']) = true :=
          containsSeq_of_mem (List.mem_append_right _ (List.mem_cons_self _ _))
        have hany : chordSyms.any (fun s => containsSeq s (T0 ++ ['|'])) = true :=
          List.any_eq_true.mpr ⟨['|'], by decide, hcs⟩
        unfold chordTok
        rw [hany, Bool.or_true]
      rw [hwT2, htrue] at hwf
      exact absurd hwf (by decide)

/-- The per-line step of format_song, with its local definitions
flattened. -/
theorem procLine_eq (line : List Char) :
    procLine line =
      if trimL line = [] then none
      else if isChordLine (trimL line) then none
      else
        match isNumberedSection (trimL line) with
        | some (num, ty) => some (ty ++ ' ' :: (num ++ [':']))
        | none =>
          if isSectionLabel (trimL line) then
            some (stripDelim (trimL line) ++ [':'])
          else some (trimL line) := rfl

/-- A trimmed, non-chord line ending in a colon that is not a numbered
section is a fixed point of the per-line step: whether or not it
passes the label test, the emitted line is the line itself. -/
theorem procLine_colon {v : List Char}
    (htr : trimL (v ++ [':']) = v ++ [':'])
    (hch : isChordLine (v ++ [':']) = false)
    (hnp : numParse (v ++ [':']) = none) :
    procLine (v ++ [':']) = some (v ++ [':']) := by
  have hnum : isNumberedSection (v ++ [':']) = none := by
    unfold isNumberedSection
    rw [htr, hnp]
  rw [procLine_eq, htr]
  rw [if_neg (by simp : ¬(v ++ [':'] = ([] : List Char)))]
  rw [if_neg (by simp [hch])]
  rw [hnum]
  try dsimp only
  have hsd : stripDelim (v ++ [':']) = v := by
    unfold stripDelim
    rw [getLast?_append_colon]
    dsimp only
    rw [if_pos (by decide)]
    exact List.dropLast_concat
  by_cases hsl : isSectionLabel (v ++ [':']) = true
  · rw [if_pos hsl, hsd]
  · rw [if_neg hsl]

/-- Central stability: every line the per-line step emits is trimmed,
non-blank, not the comment marker, and a fixed point of the step. -/
theorem procLine_stable {l u : List Char} (h : procLine l = some u) :
    trimL u = u ∧ u ≠ [] ∧ u ≠ ['/', '/'] ∧ procLine u = some u := by
  rw [procLine_eq] at h
  by_cases h0 : trimL l = []
  · rw [if_pos h0] at h
    exact absurd h (by simp)
  rw [if_neg h0] at h
  by_cases hchT : isChordLine (trimL l) = true
  · rw [if_pos hchT] at h
    exact absurd h (by simp)
  rw [if_neg hchT] at h
  have hch : isChordLine (trimL l) = false := Bool.eq_false_iff.mpr hchT
  have htt : trimL (trimL l) = trimL l := trimL_idem l
  have hInum : isNumberedSection (trimL l) = numParse (trimL l) := by
    unfold isNumberedSection
    rw [htt]
  have hhead : ∀ c, (trimL l).head? = some c → pySpace c = false :=
    fun c hc => trimL_head hc
  cases hns : isNumberedSection (trimL l) with
  | none =>
    rw [hns] at h
    try dsimp only at h
    have hnp : numParse (trimL l) = none := by rw [← hInum]; exact hns
    by_cases hsl : isSectionLabel (trimL l) = true
    · rw [if_pos hsl] at h
      have hu : u = stripDelim (trimL l) ++ [':'] := (Option.some.inj h).symm
      cases hgl : (trimL l).getLast? with
      | none => exact absurd (List.getLast?_eq_none_iff.mp hgl) h0
      | some e =>
        obtain ⟨ys, hys⟩ := List.getLast?_eq_some_iff.mp hgl
        have hdl : (trimL l).dropLast = ys := by
          rw [hys]
          exact List.dropLast_concat
        have hsd : stripDelim (trimL l) =
            if (e = ':' || e = '|') = true then ys else trimL l := by
          unfold stripDelim
          rw [hgl]
          dsimp only
          rw [hdl]
        by_cases he1 : e = ':'
        · subst he1
          have hsd2 : stripDelim (trimL l) = ys := by
            rw [hsd, if_pos (by decide)]
          have hueq : u = ys ++ [':'] := by rw [hu, hsd2]
          have hueq2 : u = trimL l := by rw [hueq, ← hys]
          refine ⟨by rw [hueq2]; exact htt, by rw [hueq2]; exact h0, ?_, ?_⟩
          · rw [hueq]
            exact ne_slashes_of_colon _
          · rw [hueq]
            apply procLine_colon
            · rw [← hys]; exact htt
            · rw [← hys]; exact hch
            · rw [← hys]; exact hnp
        · by_cases he2 : e = '|'
          · subst he2
            have hsd2 : stripDelim (trimL l) = ys := by
              rw [hsd, if_pos (by decide)]
            have hueq : u = ys ++ [':'] := by rw [hu, hsd2]
            have htrm : trimL (ys ++ ['|']) = ys ++ ['|'] := by
              rw [← hys]; exact htt
            have hchm : isChordLine (ys ++ ['|']) = false := by
              rw [← hys]; exact hch
            have hchu : isChordLine (ys ++ [':']) = false :=
              isChordLine_bar_colon htrm hchm
            have hnpm : numParse ys = none := by
              apply (numParse_snoc (e := '|') (by decide) (by decide)
                (by decide) ys).mp
              rw [← hys]
              exact hnp
            have hnpu : numParse (ys ++ [':']) = none :=
              (numParse_snoc (by decide) (by decide) (by decide) ys).mpr hnpm
            have hhm : ∀ c, ys.head? = some c → pySpace c = false := by
              intro c hc
              have hyne : ys ≠ [] := by
                intro hcon
                rw [hcon] at hc
                simp at hc
              apply hhead
              rw [hys, List.head?_append_of_ne_nil _ hyne]
              exact hc
            have htru : trimL (ys ++ [':']) = ys ++ [':'] :=
              trimL_snoc (by decide) hhm
            refine ⟨by rw [hueq]; exact htru, by rw [hueq]; simp, ?_, ?_⟩
            · rw [hueq]
              exact ne_slashes_of_colon _
            · rw [hueq]
              exact procLine_colon htru hchu hnpu
          · have hsd2 : stripDelim (trimL l) = trimL l := by
              rw [hsd, if_neg (by simp [he1, he2])]
            have hueq : u = trimL l ++ [':'] := by rw [hu, hsd2]
            have htru : trimL (trimL l ++ [':']) = trimL l ++ [':'] :=
              trimL_snoc (by decide) hhead
            have hchu : isChordLine (trimL l ++ [':']) = false :=
              isChordLine_snoc_colon htt h0 hch
            have hnpu : numParse (trimL l ++ [':']) = none :=
              (numParse_snoc (by decide) (by decide) (by decide) _).mpr hnp
            refine ⟨by rw [hueq]; exact htru, by rw [hueq]; simp, ?_, ?_⟩
            · rw [hueq]
              exact ne_slashes_of_colon _
            · rw [hueq]
              exact procLine_colon htru hchu hnpu
    · rw [if_neg hsl] at h
      have hu : u = trimL l := (Option.some.inj h).symm
      have hslash : trimL l ≠ ['/', '/'] := by
        intro hcon
        rw [hcon] at hch
        exact absurd hch (by decide)
      refine ⟨by rw [hu]; exact htt, by rw [hu]; exact h0,
        by rw [hu]; exact hslash, ?_⟩
      rw [hu, procLine_eq, htt, if_neg h0, if_neg (by simp [hch]), hns]
      try dsimp only
      rw [if_neg hsl]
  | some pr =>
    rw [hns] at h
    obtain ⟨num, ty⟩ := pr
    try dsimp only at h
    have hu : u = ty ++ ' ' :: (num ++ [':']) := (Option.some.inj h).symm
    have hnp : numParse (trimL l) = some (num, ty) := by rw [← hInum]; exact hns
    rw [numParse_eq] at hnp
    by_cases htw : (trimL l).takeWhile isAsciiDigit = []
    · rw [if_pos htw] at hnp
      exact absurd hnp (by simp)
    rw [if_neg htw] at hnp
    cases hkwv : kwMatch (((trimL l).dropWhile isAsciiDigit).dropWhile pySpace) with
    | none =>
      rw [hkwv] at hnp
      exact absurd hnp (by simp)
    | some kw =>
      rw [hkwv] at hnp
      try dsimp only at hnp
      have hpair := Option.some.inj hnp
      rw [Prod.mk.injEq] at hpair
      obtain ⟨hnumeq, htyeq⟩ := hpair
      have hkmem : kw ∈ numKinds := List.mem_of_find?_eq_some hkwv
      have hci := List.find?_some hkwv
      unfold ciStarts at hci
      have hmap : ((((trimL l).dropWhile isAsciiDigit).dropWhile
          pySpace).take kw.length).map pyLower = kw := by
        rw [List.map_take, lstarts_take hci]
      have hty2 : ty = pyCapitalize kw := by
        rw [← htyeq, ← pyCapitalize_map_lower
          ((((trimL l).dropWhile isAsciiDigit).dropWhile
            pySpace).take kw.length), hmap]
      have hkfacts : ∀ x ∈ numKinds,
          pyCapitalize x ≠ [] ∧ chordTok (pyCapitalize x) = false ∧
          ∀ c ∈ pyCapitalize x, pySpace c = false ∧ isAsciiDigit c = false := by
        decide
      obtain ⟨htyne0, hchty0, hchars0⟩ := hkfacts kw hkmem
      have htyne : ty ≠ [] := by rw [hty2]; exact htyne0
      have hchty : chordTok ty = false := by rw [hty2]; exact hchty0
      have hchars : ∀ c ∈ ty, pySpace c = false ∧ isAsciiDigit c = false := by
        rw [hty2]; exact hchars0
      have hnumne : num ≠ [] := by rw [← hnumeq]; exact htw
      have hnumdig : ∀ c ∈ num, isAsciiDigit c = true := by
        intro c hc
        rw [← hnumeq] at hc
        exact List.mem_takeWhile_imp hc
      have hBns : ∀ c ∈ num ++ [':'], pySpace c = false := by
        intro c hc
        rcases List.mem_append.mp hc with h1 | h1
        · exact pySpace_of_digit (hnumdig c h1)
        · have h2 : c = ':' := by simpa using h1
          subst h2
          decide
      have hBne : num ++ [':'] ≠ ([] : List Char) := by simp
      have htyns : ∀ c ∈ ty, pySpace c = false := fun c hc => (hchars c hc).1
      have hsw : splitWs (ty ++ ' ' :: (num ++ [':'])) = [ty, num ++ [':']] :=
        splitWs_two_tokens htyne hBne htyns hBns
      have hform : ty ++ ' ' :: (num ++ [':']) = (ty ++ ' ' :: num) ++ [':'] := by
        simp
      have htru : trimL (ty ++ ' ' :: (num ++ [':'])) =
          ty ++ ' ' :: (num ++ [':']) := by
        apply trimL_eq_self
        · intro c hc
          rw [List.head?_append_of_ne_nil _ htyne] at hc
          exact htyns c (mem_of_head?_eq hc)
        · intro c hc
          rw [hform, getLast?_append_colon] at hc
          have h2 : ':' = c := Option.some.inj hc
          rw [← h2]
          decide
      have hune : ty ++ ' ' :: (num ++ [':']) ≠ ([] : List Char) := by simp
      have hchu : isChordLine (ty ++ ' ' :: (num ++ [':'])) = false := by
        rw [isChordLine_eq_all htru hune, hsw]
        simp [hchty]
      have hnpu : numParse (ty ++ ' ' :: (num ++ [':'])) = none := by
        cases hty0 : ty with
        | nil => exact absurd hty0 htyne
        | cons c0 crest =>
          have hc0 : c0 ∈ ty := by
            rw [hty0]
            exact List.mem_cons_self _ _
          have hd0 : isAsciiDigit c0 = false := (hchars c0 hc0).2
          rw [numParse_eq]
          have htk : List.takeWhile isAsciiDigit
              (c0 :: crest ++ ' ' :: (num ++ [':'])) = [] :=
            List.takeWhile_cons_of_neg (by simp [hd0])
          rw [if_pos htk]
      refine ⟨by rw [hu]; exact htru, by rw [hu]; exact hune, ?_, ?_⟩
      · rw [hu, hform]
        exact ne_slashes_of_colon _
      · rw [hu]
        rw [hform] at htru hchu hnpu ⊢
        exact procLine_colon htru hchu hnpu

/-- Provenance of emitted characters: each comes from the input line,
is a delimiter the step inserts, or is a case image of an input
character. -/
theorem procLine_chars {l u : List Char} (h : procLine l = some u) {c : Char}
    (hc : c ∈ u) :
    c ∈ l ∨ c = ':' ∨ c = ' ' ∨ ∃ d ∈ l, c = pyUpper d ∨ c = pyLower d := by
  rw [procLine_eq] at h
  by_cases h0 : trimL l = []
  · rw [if_pos h0] at h
    exact absurd h (by simp)
  rw [if_neg h0] at h
  by_cases hchT : isChordLine (trimL l) = true
  · rw [if_pos hchT] at h
    exact absurd h (by simp)
  rw [if_neg hchT] at h
  cases hns : isNumberedSection (trimL l) with
  | none =>
    rw [hns] at h
    try dsimp only at h
    by_cases hsl : isSectionLabel (trimL l) = true
    · rw [if_pos hsl] at h
      have hu : u = stripDelim (trimL l) ++ [':'] := (Option.some.inj h).symm
      rw [hu] at hc
      rcases List.mem_append.mp hc with h1 | h1
      · exact Or.inl (mem_trimL (mem_stripDelim h1))
      · have h2 : c = ':' := by simpa using h1
        exact Or.inr (Or.inl h2)
    · rw [if_neg hsl] at h
      have hu : u = trimL l := (Option.some.inj h).symm
      rw [hu] at hc
      exact Or.inl (mem_trimL hc)
  | some pr =>
    rw [hns] at h
    obtain ⟨num, ty⟩ := pr
    try dsimp only at h
    have hu : u = ty ++ ' ' :: (num ++ [':']) := (Option.some.inj h).symm
    have hnp : numParse (trimL l) = some (num, ty) := by
      have hInum : isNumberedSection (trimL l) = numParse (trimL l) := by
        unfold isNumberedSection
        rw [trimL_idem l]
      rw [← hInum]
      exact hns
    rw [numParse_eq] at hnp
    by_cases htw : (trimL l).takeWhile isAsciiDigit = []
    · rw [if_pos htw] at hnp
      exact absurd hnp (by simp)
    rw [if_neg htw] at hnp
    cases hkwv : kwMatch (((trimL l).dropWhile isAsciiDigit).dropWhile pySpace) with
    | none =>
      rw [hkwv] at hnp
      exact absurd hnp (by simp)
    | some kw =>
      rw [hkwv] at hnp
      try dsimp only at hnp
      have hpair := Option.some.inj hnp
      rw [Prod.mk.injEq] at hpair
      obtain ⟨hnumeq, htyeq⟩ := hpair
      rw [hu] at hc
      rcases List.mem_append.mp hc with h1 | h1
      · -- c is in the capitalized keyword slice
        rw [← htyeq] at h1
        obtain ⟨d, hd, hcase⟩ := mem_pyCapitalize h1
        have hdl : d ∈ trimL l := by
          have hd1 := List.mem_of_mem_take hd
          have hd2 := (List.dropWhile_sublist pySpace).mem hd1
          exact (List.dropWhile_sublist isAsciiDigit).mem hd2
        exact Or.inr (Or.inr (Or.inr ⟨d, mem_trimL hdl, hcase⟩))
      · rcases List.mem_cons.mp h1 with h2 | h2
        · exact Or.inr (Or.inr (Or.inl h2))
        · rcases List.mem_append.mp h2 with h3 | h3
          · have hcl : c ∈ trimL l := by
              rw [← hnumeq] at h3
              exact (List.takeWhile_sublist isAsciiDigit).mem h3
            exact Or.inl (mem_trimL hcl)
          · have h4 : c = ':' := by simpa using h3
            exact Or.inr (Or.inl h4)

/-- The per-line step introduces no ampersand. -/
theorem procLine_no_amp {l u : List Char} (h : procLine l = some u)
    (hl : '&' ∉ l) : '&' ∉ u := by
  intro hc
  rcases procLine_chars h hc with h1 | h1 | h1 | ⟨d, hd, h2⟩
  · exact hl h1
  · exact absurd h1 (by decide)
  · exact absurd h1 (by decide)
  · have hdamp : d = '&' := by
      apply char_toNat_inj
      show d.toNat = 38
      rcases h2 with h2 | h2
      · have h3 : upperNat d.toNat = 38 := by
          have := congrArg Char.toNat h2
          rw [toNat_pyUpper] at this
          exact this.symm
        unfold upperNat at h3
        split_ifs at h3 <;> omega
      · have h3 : lowerNat d.toNat = 38 := by
          have := congrArg Char.toNat h2
          rw [toNat_pyLower] at this
          exact this.symm
        unfold lowerNat at h3
        split_ifs at h3 <;> omega
    exact hl (hdamp ▸ hd)

/-- The per-line step introduces no newline. -/
theorem procLine_no_newline {l u : List Char} (h : procLine l = some u)
    (hl : '\n' ∉ l) : '\n' ∉ u := by
  intro hc
  rcases procLine_chars h hc with h1 | h1 | h1 | ⟨d, hd, h2⟩
  · exact hl h1
  · exact absurd h1 (by decide)
  · exact absurd h1 (by decide)
  · have hdnl : d = '\n' := by
      apply char_toNat_inj
      show d.toNat = 10
      rcases h2 with h2 | h2
      · have h3 : upperNat d.toNat = 10 := by
          have := congrArg Char.toNat h2
          rw [toNat_pyUpper] at this
          exact this.symm
        unfold upperNat at h3
        split_ifs at h3 <;> omega
      · have h3 : lowerNat d.toNat = 10 := by
          have := congrArg Char.toNat h2
          rw [toNat_pyLower] at this
          exact this.symm
        unfold lowerNat at h3
        split_ifs at h3 <;> omega
    exact hl (hdnl ▸ hd)

/-- Characters of the joined text come from a line or are the
separating newline. -/
theorem mem_joinLines_rev {c : Char} :
    ∀ {ls : List (List Char)}, c ∈ joinLines ls →
      c = '\n' ∨ ∃ x ∈ ls, c ∈ x := by
  intro ls
  induction ls with
  | nil => intro h; simp [joinLines] at h
  | cons x rest ih =>
    intro h
    cases rest with
    | nil =>
      rw [joinLines_single] at h
      exact Or.inr ⟨x, List.mem_cons_self _ _, h⟩
    | cons y ys =>
      rw [joinLines_cons_cons] at h
      rcases List.mem_append.mp h with h1 | h1
      · exact Or.inr ⟨x, List.mem_cons_self _ _, h1⟩
      · rcases List.mem_cons.mp h1 with h2 | h2
        · exact Or.inl h2
        · rcases ih h2 with h3 | ⟨z, hz, hcz⟩
          · exact Or.inl h3
          · exact Or.inr ⟨z, List.mem_cons_of_mem _ hz, hcz⟩

/-- Filtering away a possibly inserted blank line. -/
theorem filterMap_blank_if (b : Bool) (A : List (List Char)) :
    List.filterMap procLine ((if b then [([] : List Char)] else []) ++ A) =
      List.filterMap procLine A := by
  cases b
  · rw [if_neg (by simp), List.nil_append]
  · rw [if_pos rfl, List.filterMap_append]
    rw [show List.filterMap procLine [([] : List Char)] = [] from rfl,
      List.nil_append]

/-- Membership in a possibly inserted blank. -/
theorem mem_blank_if {x : List Char} {b : Bool}
    (h : x ∈ (if b then [([] : List Char)] else [])) : x = [] := by
  cases b
  · rw [if_neg (by simp)] at h
    simp at h
  · rw [if_pos rfl] at h
    simpa using h

/-- The first processed line opens the format_lines loop with no
inserted blank. -/
theorem flGo_cons_start (m : List Char) (M2 : List (List Char))
    (h1 : trimL m = m) (h2 : m ≠ ['/', '/']) :
    flGo false none (m :: M2) = m :: flGo (isHdr m) (some m) M2 := by
  simp only [flGo]
  rw [h1, if_neg h2]
  simp

/-- Lines produced by the format_lines loop are inserted blanks or
input lines, whenever the input lines are already trimmed. -/
theorem flGo_mem :
    ∀ {M : List (List Char)} {fh : Bool} {last : Option (List Char)}
      {x : List Char}, x ∈ flGo fh last M → (∀ m ∈ M, trimL m = m) →
      x = [] ∨ x ∈ M := by
  intro M
  induction M with
  | nil =>
    intro fh last x hx _
    simp [flGo] at hx
  | cons m M2 ih =>
    intro fh last x hx h
    have h1 := h m (List.mem_cons_self _ _)
    simp only [flGo] at hx
    rw [h1] at hx
    by_cases hsl : m = ['/', '/']
    · rw [if_pos hsl] at hx
      rcases List.mem_append.mp hx with h2 | h2
      · exact Or.inl (mem_blank_if h2)
      · rcases ih h2 (fun y hy => h y (List.mem_cons_of_mem _ hy)) with h3 | h3
        · exact Or.inl h3
        · exact Or.inr (List.mem_cons_of_mem _ h3)
    · rw [if_neg hsl] at hx
      rcases List.mem_append.mp hx with h2 | h2
      · exact Or.inl (mem_blank_if h2)
      · rcases List.mem_cons.mp h2 with h3 | h3
        · exact Or.inr (h3 ▸ List.mem_cons_self _ _)
        · rcases ih h3 (fun y hy => h y (List.mem_cons_of_mem _ hy)) with h4 | h4
          · exact Or.inl h4
          · exact Or.inr (List.mem_cons_of_mem _ h4)

/-- The format_lines loop ends with the last input line, whenever the
input lines are trimmed and none is the comment marker. -/
theorem flGo_getLast :
    ∀ {M : List (List Char)} (fh : Bool) (last : Option (List Char)),
      M ≠ [] → (∀ m ∈ M, trimL m = m ∧ m ≠ ['/', '/']) →
      (flGo fh last M).getLast? = M.getLast? := by
  intro M
  induction M with
  | nil =>
    intro fh last hne _
    exact absurd rfl hne
  | cons m M2 ih =>
    intro fh last _ h
    obtain ⟨h1, h2⟩ := h m (List.mem_cons_self _ _)
    simp only [flGo]
    rw [h1, if_neg h2]
    cases M2 with
    | nil =>
      rw [show flGo (fh || isHdr m) (some m) ([] : List (List Char)) = []
        from rfl]
      rw [List.getLast?_append_of_ne_nil _ (List.cons_ne_nil m [])]
    | cons m2 M3 =>
      have hrec := ih (fh || isHdr m) (some m) (List.cons_ne_nil _ _)
        (fun y hy => h y (List.mem_cons_of_mem _ hy))
      cases hA : flGo (fh || isHdr m) (some m) (m2 :: M3) with
      | nil =>
        rw [hA] at hrec
        have := List.getLast?_eq_none_iff.mp hrec.symm
        exact absurd this (List.cons_ne_nil _ _)
      | cons z zs =>
        rw [List.getLast?_append_of_ne_nil _ (List.cons_ne_nil _ _),
          List.getLast?_cons_cons, ← hA, hrec, List.getLast?_cons_cons]

/-- Dropping blanks and re-processing the loop output recovers the
input lines, whenever each input line is a trimmed non-marker fixed
point of the per-line step. -/
theorem flGo_filterMap :
    ∀ (M : List (List Char)) (fh : Bool) (last : Option (List Char)),
      (∀ m ∈ M, trimL m = m ∧ m ≠ ['/', '/'] ∧ procLine m = some m) →
      (flGo fh last M).filterMap procLine = M := by
  intro M
  induction M with
  | nil => intro fh last _; rfl
  | cons m M2 ih =>
    intro fh last h
    obtain ⟨h1, h2, h3⟩ := h m (List.mem_cons_self _ _)
    simp only [flGo]
    rw [h1, if_neg h2, filterMap_blank_if]
    rw [List.filterMap_cons, h3]
    rw [ih (fh || isHdr m) (some m) (fun y hy => h y (List.mem_cons_of_mem _ hy))]

/-- The character-level equation of format_song. -/
theorem formatSongL_eq (raw : List Char) :
    formatSongL raw =
      if trimL raw = [] then []
      else formatLinesL
        (joinLines ((splitLines (cleanHtml raw)).filterMap procLine)) := rfl

/-- The character-level equation of format_lines. -/
theorem formatLinesL_eq (s : List Char) :
    formatLinesL s =
      if trimL s = [] then []
      else trimL (joinLines (flGo false none (splitLines s))) := rfl

/-- format_song is idempotent on ampersand-free input: every line of
its output is a fixed point of the per-line rewriting, the blank lines
the loop inserts are dropped and re-inserted identically, and entity
stripping never fires. -/
theorem formatSongL_idem {raw : List Char} (hamp : '&' ∉ raw) :
    formatSongL (formatSongL raw) = formatSongL raw := by
  by_cases h0 : trimL raw = []
  · rw [formatSongL_eq raw, if_pos h0]
    decide
  · have hclean : cleanHtml raw = raw := cleanHtml_of_no_amp hamp
    have hF : formatSongL raw =
        formatLinesL (joinLines ((splitLines raw).filterMap procLine)) := by
      rw [formatSongL_eq raw, if_neg h0, hclean]
    set L := (splitLines raw).filterMap procLine with hL
    have hmemL : ∀ u ∈ L, trimL u = u ∧ u ≠ [] ∧ u ≠ ['/', '/'] ∧
        procLine u = some u ∧ '\n' ∉ u ∧ '&' ∉ u := by
      intro u hu
      rw [hL] at hu
      rcases List.mem_filterMap.mp hu with ⟨line, hline, hpl⟩
      obtain ⟨s1, s2, s3, s4⟩ := procLine_stable hpl
      refine ⟨s1, s2, s3, s4, ?_, ?_⟩
      · exact procLine_no_newline hpl (newline_not_mem_splitLines hline)
      · refine procLine_no_amp hpl ?_
        intro hmem
        exact hamp (mem_of_mem_splitLines hline hmem)
    by_cases hLnil : L = []
    · rw [hF, hLnil]
      decide
    · obtain ⟨u1, L2, hL12⟩ := List.exists_cons_of_ne_nil hLnil
      have hu1 := hmemL u1 (by rw [hL12]; exact List.mem_cons_self _ _)
      have hnl : ∀ u ∈ L, '\n' ∉ u := fun u hu => (hmemL u hu).2.2.2.2.1
      have hsplit : splitLines (joinLines L) = L :=
        splitLines_joinLines hLnil hnl
      set S := flGo false none L with hS
      have hShead : S = u1 :: flGo (isHdr u1) (some u1) L2 := by
        rw [hS, hL12]
        exact flGo_cons_start u1 L2 hu1.1 hu1.2.2.1
      have hJLne : trimL (joinLines L) ≠ [] := by
        intro hcon
        have hall := trimL_eq_nil_iff.mp hcon
        cases hc0 : u1.head? with
        | none =>
          rw [List.head?_eq_none_iff] at hc0
          exact hu1.2.1 hc0
        | some c0 =>
          have hcm : c0 ∈ joinLines L := by
            apply mem_joinLines (x := u1)
            · rw [hL12]
              exact List.mem_cons_self _ _
            · exact mem_of_head?_eq hc0
          have hns : pySpace c0 = false :=
            trimL_head (l := u1) (by rw [hu1.1]; exact hc0)
          rw [hall c0 hcm] at hns
          exact absurd hns (by decide)
      have hy : formatLinesL (joinLines L) = trimL (joinLines S) := by
        rw [formatLinesL_eq, if_neg hJLne, hsplit, hS]
      have hSmem : ∀ x ∈ S, x = [] ∨ x ∈ L := by
        intro x hx
        rw [hS] at hx
        exact flGo_mem hx (fun m hm => (hmemL m hm).1)
      have hSlast : S.getLast? = L.getLast? := by
        rw [hS]
        exact flGo_getLast false none hLnil
          (fun m hm => ⟨(hmemL m hm).1, (hmemL m hm).2.2.1⟩)
      have hJS : trimL (joinLines S) = joinLines S := by
        apply trimL_eq_self
        · intro c hc
          rw [hShead, joinLines_head hu1.2.1] at hc
          exact trimL_head (l := u1) (by rw [hu1.1]; exact hc)
        · intro c hc
          cases hLk : L.getLast? with
          | none =>
            rw [List.getLast?_eq_none_iff] at hLk
            exact absurd hLk hLnil
          | some uk =>
            have hukL : uk ∈ L := List.mem_of_mem_getLast? (by rw [hLk]; rfl)
            have huk := hmemL uk hukL
            have hgl : (joinLines S).getLast? = uk.getLast? :=
              joinLines_getLast (hSlast.trans hLk) huk.2.1
            rw [hgl] at hc
            exact trimL_getLast (l := uk) (by rw [huk.1]; exact hc)
      have hSne : S ≠ [] := by
        rw [hShead]
        exact List.cons_ne_nil _ _
      have hSnl : ∀ x ∈ S, '\n' ∉ x := by
        intro x hx
        rcases hSmem x hx with h1 | h1
        · rw [h1]
          simp
        · exact hnl x h1
      have hsplit2 : splitLines (joinLines S) = S :=
        splitLines_joinLines hSne hSnl
      have hamp2 : '&' ∉ joinLines S := by
        intro hc
        rcases mem_joinLines_rev hc with h1 | ⟨x, hx, hcx⟩
        · exact absurd h1 (by decide)
        · rcases hSmem x hx with h2 | h2
          · rw [h2] at hcx
            simp at hcx
          · exact (hmemL x h2).2.2.2.2.2 hcx
      have hclean2 : cleanHtml (joinLines S) = joinLines S :=
        cleanHtml_of_no_amp hamp2
      have hJSne : trimL (joinLines S) ≠ [] := by
        rw [hJS]
        intro hcon
        have := hsplit2
        rw [hcon] at this
        rw [show splitLines ([] : List Char) = [[]] from rfl] at this
        rw [hShead] at this
        have hone := List.cons.injEq _ _ _ _ ▸ this
        exact hu1.2.1 (by
          have h1 : ([] : List Char) = u1 := (List.cons.injEq _ _ _ _ ▸ this).1
          exact h1.symm)
      have hfm : (splitLines (cleanHtml (joinLines S))).filterMap procLine
          = L := by
        rw [hclean2, hsplit2, hS]
        exact flGo_filterMap L false none
          (fun m hm => ⟨(hmemL m hm).1, (hmemL m hm).2.2.1,
            (hmemL m hm).2.2.2.1⟩)
      rw [hF, hy, hJS]
      rw [formatSongL_eq (joinLines S), if_neg (by rw [← hJS] at hJSne ⊢; exact hJSne), hfm]
      rw [hy, hJS]

/-- Claim C5 (counterexample): normalize is not idempotent on all
inputs.  On "&a&amp;b;" the first pass strips the entity &amp; and
leaves "&ab;", which the second pass strips entirely, so the two
results differ. -/
theorem c5_counterexample :
    formatSong (formatSong "&a&amp;b;") ≠ formatSong "&a&amp;b;" := by
  decide

/-- Claim C5 (amended): normalize is idempotent on every input that
contains no ampersand.  Entity stripping is then the identity, and
every line of the first pass's output is a fixed point of the per-line
rewriting, so the second pass reproduces the output verbatim. -/
theorem c5_amended (s : String) (h : '&' ∉ s.data) :
    formatSong (formatSong s) = formatSong s := by
  unfold formatSong
  exact congrArg String.mk (formatSongL_idem h)

/-- Witness for the amended claim C5 at a concrete song fragment. -/
theorem c5_witness :
    '&' ∉ ("Am G\n1 куплет\nHello world".data) ∧
      formatSong (formatSong "Am G\n1 куплет\nHello world") =
        formatSong "Am G\n1 куплет\nHello world" :=
  ⟨by decide, c5_amended "Am G\n1 куплет\nHello world" (by decide)⟩
